import Mathlib

/-!
# ParallelZip: a shallow embedding of `src/pzip.c`

`pzip` run-length encodes a buffer of lowercase letters with `n_threads`
workers.  Every worker runs `zipChars`: it scans its own slice into a private
run buffer, publishes its run count in `localCounts`, waits at the barrier,
and then merges its result into the caller's three outputs.

The embedding keeps the two halves of `zipChars` apart (`zipCharsLocal` is the
code before `pthread_barrier_wait`, `zipCharsMerge` the code after it) and
`pzip` runs the local halves of all workers first and the merges afterwards,
in ascending worker id.

Memory is modelled cell by cell: the caller's run list is a function from the
cell index to the run stored there, the frequency table a function from the
(signed) cell index relative to `char_frequency` to the `int` stored there, so
that every store the C code performs has a place to land, whether or not it is
inside the caller's allocation.  `storesInBounds` states that a call makes no
store outside its allocations: it holds for lowercase input with
`N >= T >= 1` and fails as soon as a slice is empty, where the C code has no
defined behaviour.

A C `char` is modelled by `Char` (the claims are about the letters `a` .. `z`
and the terminator `'\0'`).  The two caller-owned `int` cells the workers add
to, the run count and the frequency slots, are 32-bit: a sum is stored through
`wrapInt`.  The loop counters and `charCount` are bounded by the `int`
arguments `n_threads` and `input_chars_size` and are plain naturals.

Three further views of the same code serve the properties that are not about
the final outputs alone: the merge phase as single updates in any order
(`mergeStep`, `runSteps`), the threads of one call as a transition system
whose barrier follows the POSIX contract (`stepThread`, `runThreads`), and the
way `pzip` ends when an allocation or a `pthread_` call fails (`pzipOutcome`).
The scan is also given on a cell-by-cell private buffer (`zipCharsBuf`) that
records the indices stored to.
-/

namespace PZip

/-! ## Data model -/

/-- Modelled from the spec: `struct zipped_char` is declared in `pzip.h`, which
is not among the sources.  The spec's data model gives a Run as
`{character: byte, length: positive integer}`, so the field `occurence` holds
the `int` run length it is assigned, unchanged. -/
structure zipped_char where
  character : Char
  occurence : Nat
deriving DecidableEq, Repr, Inhabited

/-- The character constant written `'\0'` in the source. -/
def NUL : Char := Char.ofNat 0

/-- The per-thread descriptor filled in by `pzip` (the pointer fields of the C
struct all point at the caller's buffers, which are passed separately; the
field `personalZipCount` is the length of the private run buffer below). -/
structure threadData where
  size : Nat
  id : Nat
  startIdx : Nat
  endIdx : Nat
deriving DecidableEq, Repr

/-- The locals of the scanning loop of `zipChars`.  `personalZip` lists the
cells `personalZip[0 .. personalZipCount)` of the private buffer, so that
`data->personalZipCount` is its length. -/
structure scanState where
  charCount : Nat
  prevChar : Char
  personalZip : List zipped_char
deriving DecidableEq, Repr

/-- The caller-owned outputs: `zipped_chars`, `*zipped_chars_count` and
`char_frequency`, each cell addressed by its index from the pointer.  The
caller's run list has the cells `0 .. input_chars_size` and the table the cells
`0 .. 26`; a store the C code aims outside them has no defined effect in C and
lands here in a cell of its own.  `storesInBounds` says that a call makes no
such store: only then is the state after `pzip` the state of an execution of
the C code. -/
structure Outputs where
  zippedChars : Nat → zipped_char
  totalZippedCharCount : Int
  charFrequency : Int → Int

/-! ## Machine arithmetic -/

/-- The value an `int` cell holds after storing `x` (32 bit, two's complement). -/
def wrapInt (x : Int) : Int := (x + 2147483648) % 4294967296 - 2147483648

/-- The predicate that `x` is representable as an `int`. -/
def isInt (x : Int) : Prop := -2147483648 ≤ x ∧ x < 2147483648

instance (x : Int) : Decidable (isInt x) := by unfold isInt; infer_instance

/-! ## `zipChars`, before the barrier -/

/-- Locals on entry to the scanning loop: `charCount = 0`, `prevChar = '\0'`
and `data->personalZipCount = 0` (set by `pzip`). -/
def scanInit : scanState := ⟨0, NUL, []⟩

/-- One iteration of the scanning loop (lines 53-72) on `currentChar`. -/
def scanStep (st : scanState) (currentChar : Char) : scanState :=
  if st.prevChar = NUL then
    ⟨st.charCount + 1, currentChar, st.personalZip⟩
  else if st.prevChar = currentChar then
    ⟨st.charCount + 1, st.prevChar, st.personalZip⟩
  else
    ⟨1, currentChar, st.personalZip ++ [⟨st.prevChar, st.charCount⟩]⟩

/-- The scanning loop `for (i = startIdx; i < endIdx; i++)`. -/
def scanLoop (inputChars : List Char) (startIdx endIdx : Nat) : scanState :=
  (List.range' startIdx (endIdx - startIdx)).foldl
    (fun st i => scanStep st (inputChars.getD i NUL)) scanInit

/-- The store of the pending run after the loop (lines 75-78); it is not
guarded by anything.  The list has no capacity: that the store stays inside
the `size` entries of the buffer is a property of `zipCharsBuf`, and it fails
for a slice of length 0. -/
def emitLast (st : scanState) : List zipped_char :=
  st.personalZip ++ [⟨st.prevChar, st.charCount⟩]

/-- The part of `zipChars` before the barrier: the private run buffer
`personalZip[0 .. personalZipCount)` of the worker.  The list carries no
capacity and `data.size` is not consulted here; `zipCharsBuf` is the same code
on a buffer of cells and records the indices stored to, which stay below
`data.size` when the slice is not empty and do not when it is. -/
def zipCharsLocal (inputChars : List Char) (data : threadData) : List zipped_char :=
  emitLast (scanLoop inputChars data.startIdx data.endIdx)

/-! ## `zipChars`, after the barrier -/

/-- The index `(int)character - (int)'a'` into `charFrequency`. -/
def freqIdx (c : Char) : Int := (c.toNat : Int) - 97

/-- The frequency loop (lines 90-93). -/
def addFrequency (personalZip : List zipped_char) (charFrequency : Int → Int) : Int → Int :=
  personalZip.foldl
    (fun f r => Function.update f (freqIdx r.character)
      (wrapInt (f (freqIdx r.character) + (r.occurence : Int))))
    charFrequency

/-- The loop that finds where to write (lines 97-99): `writeIdx` is the sum of
`localCounts[0 .. id)`. -/
def writeIdx (localCounts : List Nat) (id : Nat) : Nat :=
  (List.range id).foldl (fun w i => w + localCounts.getD i 0) 0

/-- The copy loop (lines 102-106) with `n` iterations left, at output index `i`
and private index `count`. -/
def writeLoop (personalZip : List zipped_char) :
    Nat → Nat → Nat → (Nat → zipped_char) → (Nat → zipped_char)
  | 0, _, _, z => z
  | n + 1, i, count, z =>
    writeLoop personalZip n (i + 1) (count + 1)
      (Function.update z i (personalZip.getD count default))

/-- The output indices the copy loop of worker `id` stores to. -/
def writeRange (localCounts : List Nat) (id : Nat) : List Nat :=
  List.range' (writeIdx localCounts id) (localCounts.getD id 0)

/-- The part of `zipChars` after the barrier, for the worker `id` whose
private buffer is `personalZip`. -/
def zipCharsMerge (localCounts : List Nat) (id : Nat) (personalZip : List zipped_char)
    (out : Outputs) : Outputs :=
  ⟨writeLoop personalZip (localCounts.getD id 0) (writeIdx localCounts id) 0 out.zippedChars,
   wrapInt (out.totalZippedCharCount + (personalZip.length : Int)),
   addFrequency personalZip out.charFrequency⟩

/-! ## `pzip` -/

/-- The descriptor `pzip` builds for worker `i` (lines 165-174). -/
def mkThreadData (n_threads input_chars_size i : Nat) : threadData :=
  ⟨input_chars_size / n_threads, i,
   (input_chars_size / n_threads) * i,
   (input_chars_size / n_threads) * i + input_chars_size / n_threads⟩

/-- The descriptor table `dataStructs`. -/
def dataStructs (n_threads input_chars_size : Nat) : List threadData :=
  (List.range n_threads).map (mkThreadData n_threads input_chars_size)

/-- The private buffers of all workers when they reach the barrier. -/
def personalZips (n_threads : Nat) (input_chars : List Char) (input_chars_size : Nat) :
    List (List zipped_char) :=
  (dataStructs n_threads input_chars_size).map (zipCharsLocal input_chars)

/-- The table `localCounts` when the barrier opens: slot `id` holds the
`personalZipCount` of worker `id`. -/
def localCountsOf (n_threads : Nat) (input_chars : List Char) (input_chars_size : Nat) :
    List Nat :=
  (personalZips n_threads input_chars input_chars_size).map List.length

/-- The merge phase with the workers taking their turn in the order `ids`. -/
def mergeIn (localCounts : List Nat) (personal : List (List zipped_char)) (ids : List Nat)
    (out : Outputs) : Outputs :=
  ids.foldl (fun o id => zipCharsMerge localCounts id (personal.getD id []) o) out

/-- The routine `pzip`: all workers encode their slice, the barrier opens, and
the workers merge in ascending id. -/
def pzip (n_threads : Nat) (input_chars : List Char) (input_chars_size : Nat)
    (out : Outputs) : Outputs :=
  mergeIn (localCountsOf n_threads input_chars input_chars_size)
    (personalZips n_threads input_chars input_chars_size) (List.range n_threads) out

/-! ## Reading the outputs -/

/-- The run list `outputRuns[0 .. outputRunCount)` the caller reads. -/
def outputRuns (out : Outputs) : List zipped_char :=
  (List.range out.totalZippedCharCount.toNat).map out.zippedChars

/-- Decoding: each run expanded to its character repeated `occurence` times. -/
def expand (runs : List zipped_char) : List Char :=
  runs.flatMap (fun r => List.replicate r.occurence r.character)

/-- The predicate that a character is one of `a` .. `z`. -/
def isLower (c : Char) : Prop := 97 ≤ c.toNat ∧ c.toNat ≤ 122

instance (c : Char) : Decidable (isLower c) := by unfold isLower; infer_instance

/-- Outputs as a test harness hands them over: count 0, table 0, and every
cell of the run list holding `(NUL, 0)`. -/
def zeroOutputs : Outputs := ⟨fun _ => ⟨NUL, 0⟩, 0, fun _ => 0⟩


/-! ## Reference definitions the properties are stated with -/

/-- The slice `inputChars[startIdx .. endIdx)` as a list. -/
def sliceOf (inputChars : List Char) (startIdx endIdx : Nat) : List Char :=
  (inputChars.drop startIdx).take (endIdx - startIdx)

/-- Reference run-length encoding of a list, written from the spec's words (a
Run is a maximal sequence of identical characters) and not from the scanning
loop: by recursion on the list, the head either extends the first run of the
encoded tail or opens a new run. -/
def rle : List Char → List zipped_char
  | [] => []
  | c :: cs =>
    match rle cs with
    | [] => [⟨c, 1⟩]
    | r :: rs => if r.character = c then ⟨c, r.occurence + 1⟩ :: rs else ⟨c, 1⟩ :: r :: rs

/-- Sum of the lengths of the runs of `runs` whose frequency index is `k`. -/
def runSum (k : Int) (runs : List zipped_char) : Nat :=
  (runs.map (fun r => if freqIdx r.character = k then r.occurence else 0)).sum

/-- Sum of the lengths of the runs of `runs` whose character is `c`. -/
def lengthOf (c : Char) (runs : List zipped_char) : Nat :=
  ((runs.filter (fun r => r.character = c)).map (fun r => r.occurence)).sum

/-- Sum of the lengths of all runs of `runs`. -/
def totalLength (runs : List zipped_char) : Nat :=
  (runs.map (fun r => r.occurence)).sum

/-- Sum of the 26 slots `char_frequency[0 .. 26)`. -/
def tableSum (charFrequency : Int → Int) : Int :=
  ((List.range 26).map (fun k : Nat => charFrequency (k : Int))).sum

/-- The single prefix-sum pass of the spec (section 4.4), written from the
spec's words: one sweep over `localCounts` carrying the running sum, giving
the offsets of the workers `0 .. T` followed by the total. -/
def prefixSumPass : Nat → List Nat → List Nat
  | acc, [] => [acc]
  | acc, n :: ns => acc :: prefixSumPass (acc + n) ns

/-- The slice of the input that `pzip` assigns to worker `i`. -/
def workerSlice (n_threads : Nat) (input_chars : List Char) (i : Nat) : List Char :=
  sliceOf input_chars (mkThreadData n_threads input_chars.length i).startIdx
    (mkThreadData n_threads input_chars.length i).endIdx

/-- Outputs whose run-list cells all hold the marker `(q, 9)` on entry, with
count 0 and table 0: a store of any other run to a cell is visible. -/
def markedOutputs : Outputs := ⟨fun _ => ⟨'q', 9⟩, 0, fun _ => 0⟩

/-- The output indices all workers store to, in worker order. -/
def writtenIndices (n_threads : Nat) (input_chars : List Char) (input_chars_size : Nat) :
    List Nat :=
  (List.range n_threads).flatMap
    (writeRange (localCountsOf n_threads input_chars input_chars_size))

/-- The runs the workers have stored, read back from the run list `out` in
index order. -/
def emittedRuns (n_threads : Nat) (input_chars : List Char) (input_chars_size : Nat)
    (out : Outputs) : List zipped_char :=
  (writtenIndices n_threads input_chars input_chars_size).map out.zippedChars

/-! ## The merge phase, step by step -/

/-- The three updates a worker makes after the barrier: the count merge under
`zipCountLock` (lines 84-86), the frequency merge under `freqLock`
(lines 89-94) and the unlocked write into its own range of `zippedChars`
(lines 97-106). -/
inductive mergeStep where
  | countMerge (id : Nat)
  | freqMerge (id : Nat)
  | outputWrite (id : Nat)
deriving DecidableEq, Repr

/-- The effect of one post-barrier update on the caller's outputs. -/
def applyStep (localCounts : List Nat) (personal : List (List zipped_char)) (out : Outputs) :
    mergeStep → Outputs
  | mergeStep.countMerge id =>
    ⟨out.zippedChars,
     wrapInt (out.totalZippedCharCount + ((personal.getD id []).length : Int)),
     out.charFrequency⟩
  | mergeStep.freqMerge id =>
    ⟨out.zippedChars, out.totalZippedCharCount,
     addFrequency (personal.getD id []) out.charFrequency⟩
  | mergeStep.outputWrite id =>
    ⟨writeLoop (personal.getD id []) (localCounts.getD id 0) (writeIdx localCounts id) 0
       out.zippedChars,
     out.totalZippedCharCount, out.charFrequency⟩

/-- The post-barrier updates of worker `id`, in program order. -/
def workerSteps (id : Nat) : List mergeStep :=
  [mergeStep.countMerge id, mergeStep.freqMerge id, mergeStep.outputWrite id]

/-- The post-barrier updates of all `n_threads` workers. -/
def allSteps (n_threads : Nat) : List mergeStep :=
  (List.range n_threads).flatMap workerSteps

/-- The merge phase with the updates taking effect in the order `sched`. -/
def runSteps (localCounts : List Nat) (personal : List (List zipped_char))
    (sched : List mergeStep) (out : Outputs) : Outputs :=
  sched.foldl (applyStep localCounts personal) out

/-! ## The threads of one call, as a transition system -/

/-- Where a worker thread stands in `zipChars`: not yet created by `pzip`
(line 176), encoding its slice (lines 42-78), having stored its slot of
`localCounts` (line 80), blocked in `pthread_barrier_wait` (line 82), past the
barrier (lines 84-106), or gone through `pthread_exit` (line 109). -/
inductive workerPc where
  | notCreated
  | encoding
  | published
  | waiting
  | merging
  | exited
deriving DecidableEq, Repr

/-- The events of an execution: the main thread creates the next worker
(a successful `pthread_create` in the loop of lines 164-181), or a creation
fails and the process exits (lines 177-180); worker `id` stores its slot of
`localCounts`, calls `pthread_barrier_wait`, returns from it, or finishes its
post-barrier code. -/
inductive threadEvent where
  | create
  | createFails
  | publish (id : Nat)
  | barrierWait (id : Nat)
  | barrierPass (id : Nat)
  | finish (id : Nat)
deriving DecidableEq, Repr

/-- The threads of one call of `pzip`: the position of every worker, the loop
counter of the creation loop, how many calls of `pthread_barrier_wait` the
barrier has seen, the count the barrier was initialised with, and whether the
process has exited. -/
structure threadState where
  pcs : List workerPc
  created : Nat
  arrived : Nat
  barrierCount : Nat
  halted : Bool
deriving DecidableEq, Repr

/-- The threads when the creation loop starts: `pthread_barrier_init` has been
given the count `n_threads` (line 147) and no worker exists. -/
def initThreads (n_threads : Nat) : threadState :=
  ⟨List.replicate n_threads workerPc.notCreated, 0, 0, n_threads, false⟩

/-- One event.  A worker returns from `pthread_barrier_wait` only once the
barrier has seen as many calls as its count (the POSIX contract of the
barrier); every other move follows the program order of `zipChars`. -/
def stepThread (s : threadState) : threadEvent → Option threadState
  | threadEvent.create =>
    if s.halted = false ∧ s.created < s.pcs.length then
      some ⟨s.pcs.set s.created workerPc.encoding, s.created + 1, s.arrived, s.barrierCount,
        false⟩
    else none
  | threadEvent.createFails =>
    if s.halted = false ∧ s.created < s.pcs.length then
      some ⟨s.pcs, s.created, s.arrived, s.barrierCount, true⟩
    else none
  | threadEvent.publish id =>
    if s.halted = false ∧ s.pcs[id]? = some workerPc.encoding then
      some ⟨s.pcs.set id workerPc.published, s.created, s.arrived, s.barrierCount, false⟩
    else none
  | threadEvent.barrierWait id =>
    if s.halted = false ∧ s.pcs[id]? = some workerPc.published then
      some ⟨s.pcs.set id workerPc.waiting, s.created, s.arrived + 1, s.barrierCount, false⟩
    else none
  | threadEvent.barrierPass id =>
    if s.halted = false ∧ s.pcs[id]? = some workerPc.waiting ∧ s.barrierCount ≤ s.arrived then
      some ⟨s.pcs.set id workerPc.merging, s.created, s.arrived, s.barrierCount, false⟩
    else none
  | threadEvent.finish id =>
    if s.halted = false ∧ s.pcs[id]? = some workerPc.merging then
      some ⟨s.pcs.set id workerPc.exited, s.created, s.arrived, s.barrierCount, false⟩
    else none

/-- An execution: the events one after the other; `none` when an event is not
enabled. -/
def runThreads : threadState → List threadEvent → Option threadState
  | s, [] => some s
  | s, e :: es =>
    match stepThread s e with
    | none => none
    | some s1 => runThreads s1 es

/-- The worker has stored its slot of `localCounts` (line 80). -/
def hasPublished : workerPc → Bool
  | workerPc.notCreated => false
  | workerPc.encoding => false
  | _ => true

/-- The worker has called `pthread_barrier_wait`. -/
def calledWait : workerPc → Bool
  | workerPc.waiting => true
  | workerPc.merging => true
  | workerPc.exited => true
  | _ => false

/-- The worker is executing, or has executed, post-barrier code. -/
def pastBarrier : workerPc → Bool
  | workerPc.merging => true
  | workerPc.exited => true
  | _ => false

/-- The invariant of the executions: the barrier was given the number of
workers, it has seen one call from each worker at or past the wait, workers
not yet created are marked so, and a worker is past the barrier only if the
barrier has seen its full count. -/
def threadInv (s : threadState) : Prop :=
  s.barrierCount = s.pcs.length
  ∧ s.arrived = s.pcs.countP calledWait
  ∧ (∀ j, s.created ≤ j → j < s.pcs.length → s.pcs[j]? = some workerPc.notCreated)
  ∧ (∀ pc ∈ s.pcs, pastBarrier pc = true → s.barrierCount ≤ s.arrived)

/-! ## Resource failures in `pzip` -/

/-- The resources one call acquires: the three tables `pzip` allocates, the
barrier, the two locks, the thread of worker `id` (its creation and its join)
and the private run buffer of worker `id`. -/
inductive resource where
  | localCounts
  | dataStructs
  | threads
  | barrier
  | zipCountLock
  | freqLock
  | thread (id : Nat)
  | threadJoin (id : Nat)
  | personalZip (id : Nat)
deriving DecidableEq, Repr

/-- Which acquisitions fail in one call: `true` means `malloc` returns `NULL`,
or the `pthread_` call returns non-zero. -/
structure failures where
  localCountsAlloc : Bool
  dataStructsAlloc : Bool
  threadsAlloc : Bool
  barrierInit : Bool
  zipCountLockInit : Bool
  freqLockInit : Bool
  createThread : Nat → Bool
  joinThread : Nat → Bool
  personalZipAlloc : Nat → Bool

/-- How a call ends: the fatal path (`fprintf(stderr, ..)` and
`exit(EXIT_FAILURE)`) taken for the resource, a store through the `NULL`
pointer of a failed allocation, or the normal return. -/
inductive outcome where
  | fatal (r : resource)
  | nullUse (r : resource)
  | returned
deriving DecidableEq, Repr

/-- The creation loop (lines 164-181) from worker `i` on, `n` iterations left:
each iteration stores the descriptor to `dataStructs[i]` and then checks the
status of `pthread_create`.  `none` when the loop runs to its end. -/
def createLoop (fl : failures) : Nat → Nat → Option outcome
  | 0, _ => none
  | n + 1, i =>
    if fl.dataStructsAlloc then some (outcome.nullUse resource.dataStructs)
    else if fl.createThread i then some (outcome.fatal (resource.thread i))
    else createLoop fl n (i + 1)

/-- The resources worker `id` uses in `zipChars`: `personalZip`, allocated at
line 48 and stored to at line 77 at the latest, then `localCounts`, stored to
at line 80.  Neither pointer is checked. -/
def workerOutcome (fl : failures) (id : Nat) : Option outcome :=
  if fl.personalZipAlloc id then some (outcome.nullUse (resource.personalZip id))
  else if fl.localCountsAlloc then some (outcome.nullUse resource.localCounts)
  else none

/-- The workers `i .. i + n`, in ascending id. -/
def workersLoop (fl : failures) : Nat → Nat → Option outcome
  | 0, _ => none
  | n + 1, i =>
    match workerOutcome fl i with
    | some o => some o
    | none => workersLoop fl n (i + 1)

/-- The join loop (lines 184-190). -/
def joinLoop (fl : failures) : Nat → Nat → Option outcome
  | 0, _ => none
  | n + 1, i =>
    if fl.joinThread i then some (outcome.fatal (resource.threadJoin i))
    else joinLoop fl n (i + 1)

/-- The way `pzip` ends under the failures `fl`, in program order: the two
unchecked allocations of lines 136-137, the checked allocation of `threads`,
the checked initialisations, the creation loop, the workers, the join loop. -/
def pzipOutcome (fl : failures) (n_threads : Nat) : outcome :=
  if fl.threadsAlloc then outcome.fatal resource.threads
  else if fl.barrierInit then outcome.fatal resource.barrier
  else if fl.zipCountLockInit then outcome.fatal resource.zipCountLock
  else if fl.freqLockInit then outcome.fatal resource.freqLock
  else
    match createLoop fl n_threads 0 with
    | some o => o
    | none =>
      match workersLoop fl n_threads 0 with
      | some o => o
      | none =>
        match joinLoop fl n_threads 0 with
        | some o => o
        | none => outcome.returned

/-- No acquisition fails. -/
def noFailures : failures :=
  ⟨false, false, false, false, false, false, fun _ => false, fun _ => false, fun _ => false⟩

/-- The outcome is the fatal path. -/
def outcome.isFatal : outcome → Bool
  | outcome.fatal _ => true
  | _ => false

/-- The three properties the spec gives of the run-length encoding `runs` of
the character list `s`: every run has length at least 1, no two adjacent runs
have the same character, and the expansion is `s`. -/
def isEncoding (runs : List zipped_char) (s : List Char) : Prop :=
  (∀ r ∈ runs, 1 ≤ r.occurence)
  ∧ List.Chain' (fun a b : zipped_char => a.character ≠ b.character) runs
  ∧ expand runs = s

/-! ## The private buffer, cell by cell -/

/-- The locals of the scanning loop with the private buffer kept cell by cell:
`personalZip` maps the cell index to the cell, `personalZipCount` is
`data->personalZipCount`, and `stores` records, in order, the indices of
`personalZip` the code has stored to. -/
structure bufState where
  charCount : Nat
  prevChar : Char
  personalZip : Nat → zipped_char
  personalZipCount : Nat
  stores : List Nat

/-- Locals on entry to the loop; `cells` is what `malloc` returned. -/
def bufInit (cells : Nat → zipped_char) : bufState := ⟨0, NUL, cells, 0, []⟩

/-- One iteration of the scanning loop (lines 53-72), the store of line 66
made to cell `personalZipCount`. -/
def bufStep (st : bufState) (currentChar : Char) : bufState :=
  if st.prevChar = NUL then
    ⟨st.charCount + 1, currentChar, st.personalZip, st.personalZipCount, st.stores⟩
  else if st.prevChar = currentChar then
    ⟨st.charCount + 1, st.prevChar, st.personalZip, st.personalZipCount, st.stores⟩
  else
    ⟨1, currentChar,
     Function.update st.personalZip st.personalZipCount ⟨st.prevChar, st.charCount⟩,
     st.personalZipCount + 1, st.stores ++ [st.personalZipCount]⟩

/-- The store of the pending run after the loop (lines 75-78). -/
def bufLast (st : bufState) : bufState :=
  ⟨st.charCount, st.prevChar,
   Function.update st.personalZip st.personalZipCount ⟨st.prevChar, st.charCount⟩,
   st.personalZipCount + 1, st.stores ++ [st.personalZipCount]⟩

/-- The part of `zipChars` before the barrier, on the cell-by-cell buffer. -/
def zipCharsBuf (inputChars : List Char) (data : threadData) (cells : Nat → zipped_char) :
    bufState :=
  bufLast ((List.range' data.startIdx (data.endIdx - data.startIdx)).foldl
    (fun st i => bufStep st (inputChars.getD i NUL)) (bufInit cells))

/-- The cell-by-cell locals `b` and the list locals `st` describe the same
point of the loop. -/
def bufAgrees (b : bufState) (st : scanState) : Prop :=
  b.charCount = st.charCount ∧ b.prevChar = st.prevChar
  ∧ b.personalZipCount = st.personalZip.length
  ∧ (List.range b.personalZipCount).map b.personalZip = st.personalZip
  ∧ b.stores = List.range b.personalZipCount

/-- The indices of `charFrequency` the frequency loop (lines 90-93) of a
worker with the private buffer `personalZip` updates, in order. -/
def freqIndices (personalZip : List zipped_char) : List Int :=
  personalZip.map (fun r => freqIdx r.character)

/-- A run of `k` characters `c` put in front of an encoded list: it is added to
the first run when that has the character `c`. -/
def joinRun (c : Char) (k : Nat) : List zipped_char → List zipped_char
  | [] => [⟨c, k⟩]
  | q :: qs => if q.character = c then ⟨c, k + q.occurence⟩ :: qs else ⟨c, k⟩ :: q :: qs

/-- Coalescing of a run list, written from the words of the property: adjacent
runs with equal characters become one run, their lengths summed. -/
def coalesce : List zipped_char → List zipped_char
  | [] => []
  | r :: rs => joinRun r.character r.occurence (coalesce rs)

/-- The processed prefix `input[0 .. T*(N/T))`. -/
def processed (n_threads : Nat) (input_chars : List Char) : List Char :=
  input_chars.take (n_threads * (input_chars.length / n_threads))

/-- The number of positions of a list at which the character differs from the
one before it. -/
def breaks : List Char → Nat
  | [] => 0
  | [_] => 0
  | a :: b :: rest => (if a = b then 0 else 1) + breaks (b :: rest)

/-- The number of slice boundaries `j * blockSize`, `0 < j < T`, at which the
characters on both sides, `input[j*blockSize - 1]` and `input[j*blockSize]`,
are equal (`j = i + 1` for `i` in `0 .. T - 1`). -/
def equalBoundaries (n_threads : Nat) (input_chars : List Char) : Nat :=
  (List.range (n_threads - 1)).countP (fun i =>
    decide (input_chars[(i + 1) * (input_chars.length / n_threads) - 1]? =
      input_chars[(i + 1) * (input_chars.length / n_threads)]?))

/-! ## Stores inside the allocations -/

/-- Every store of one call of `pzip` lands inside the allocation it is aimed
at: each worker stores to its private buffer below its `size` entries, updates
only the slots `0 .. 26` of the frequency table, and the workers store to the
run list only below `input_chars_size`, the capacity the caller guarantees. -/
def storesInBounds (n_threads : Nat) (input_chars : List Char) (input_chars_size : Nat) :
    Prop :=
  (∀ i, i < n_threads →
    ∀ k ∈ (zipCharsBuf input_chars (mkThreadData n_threads input_chars_size i)
        (fun _ => default)).stores,
      k < (mkThreadData n_threads input_chars_size i).size)
  ∧ (∀ i, i < n_threads →
    ∀ k ∈ freqIndices ((personalZips n_threads input_chars input_chars_size).getD i []),
      0 ≤ k ∧ k < 26)
  ∧ (∀ k ∈ writtenIndices n_threads input_chars input_chars_size, k < input_chars_size)

instance (n_threads : Nat) (input_chars : List Char) (input_chars_size : Nat) :
    Decidable (storesInBounds n_threads input_chars input_chars_size) := by
  unfold storesInBounds
  infer_instance

/-! ## Machine arithmetic: lemmas -/

theorem wrapInt_of_isInt {x : Int} (h : isInt x) : wrapInt x = x := by
  unfold isInt at h
  unfold wrapInt
  omega

theorem isInt_wrapInt (x : Int) : isInt (wrapInt x) := by
  unfold isInt wrapInt
  omega

theorem wrapInt_wrapInt_add (a b : Int) : wrapInt (wrapInt a + b) = wrapInt (a + b) := by
  unfold wrapInt
  omega

theorem isInt_natCast {n : Nat} (h : n < 2147483648) : isInt (n : Int) := by
  unfold isInt
  omega

/-! ## The scanning loop -/

theorem range_map_getD (l : List Char) (d : Char) :
    ∀ (n s : Nat), s + n ≤ l.length →
      (List.range' s n).map (fun i => l.getD i d) = (l.drop s).take n := by
  intro n
  induction n with
  | zero => intro s _; simp
  | succ n ih =>
    intro s hs
    have hlt : s < l.length := by omega
    rw [List.range'_succ, List.map_cons, ih (s + 1) (by omega)]
    rw [List.drop_eq_getElem_cons hlt, List.take_succ_cons]
    simp [List.getD_eq_getElem?_getD, List.getElem?_eq_getElem hlt]

theorem scanLoop_eq_foldl (inputChars : List Char) (startIdx endIdx : Nat)
    (h : startIdx ≤ endIdx) (hend : endIdx ≤ inputChars.length) :
    scanLoop inputChars startIdx endIdx =
      (sliceOf inputChars startIdx endIdx).foldl scanStep scanInit := by
  unfold scanLoop sliceOf
  rw [← range_map_getD inputChars NUL (endIdx - startIdx) startIdx (by omega), List.foldl_map]

theorem expand_append (a b : List zipped_char) : expand (a ++ b) = expand a ++ expand b := by
  simp [expand]

theorem expand_singleton (r : zipped_char) :
    expand [r] = List.replicate r.occurence r.character := by
  simp [expand]

theorem expand_emitLast (st : scanState) :
    expand (emitLast st) = expand st.personalZip ++ List.replicate st.charCount st.prevChar := by
  simp [emitLast, expand_append, expand_singleton]

/-- Decoding what the scan leaves gives back what it has read, as long as no
`'\0'` is read. -/
theorem expand_scan (s : List Char) :
    ∀ st : scanState, (∀ c ∈ s, c ≠ NUL) → (st.prevChar = NUL → st.charCount = 0) →
      expand (emitLast (s.foldl scanStep st)) = expand (emitLast st) ++ s := by
  induction s with
  | nil => intro st _ _; simp
  | cons c cs ih =>
    intro st hs hst
    have hc : c ≠ NUL := hs c (by simp)
    have hcs : ∀ x ∈ cs, x ≠ NUL := fun x hx => hs x (by simp [hx])
    rw [List.foldl_cons]
    by_cases h0 : st.prevChar = NUL
    · have hstep : scanStep st c = ⟨st.charCount + 1, c, st.personalZip⟩ := by
        simp [scanStep, h0]
      rw [hstep, ih _ hcs (by intro h; exact absurd h hc)]
      simp [expand_emitLast, hst h0, h0]
    · by_cases h1 : st.prevChar = c
      · have hstep : scanStep st c = ⟨st.charCount + 1, st.prevChar, st.personalZip⟩ := by
          simp [scanStep, h0, h1]
        rw [hstep, ih _ hcs (by intro h; exact absurd h h0)]
        simp [expand_emitLast, List.replicate_succ', h1]
      · have hstep : scanStep st c =
            ⟨1, c, st.personalZip ++ [⟨st.prevChar, st.charCount⟩]⟩ := by
          simp [scanStep, h0, h1]
        rw [hstep, ih _ hcs (by intro h; exact absurd h hc)]
        simp [expand_emitLast, expand_append, expand_singleton]

theorem isLower_ne_NUL {c : Char} (h : isLower c) : c ≠ NUL := by
  intro hc
  subst hc
  revert h
  decide

theorem expand_zipCharsLocal (inputChars : List Char) (data : threadData)
    (hle : data.startIdx ≤ data.endIdx) (hend : data.endIdx ≤ inputChars.length)
    (hlow : ∀ c ∈ inputChars, isLower c) :
    expand (zipCharsLocal inputChars data) = sliceOf inputChars data.startIdx data.endIdx := by
  unfold zipCharsLocal
  rw [scanLoop_eq_foldl _ _ _ hle hend, expand_scan]
  · simp [expand_emitLast, scanInit, expand_emitLast]
    rfl
  · intro c hc
    apply isLower_ne_NUL
    apply hlow
    unfold sliceOf at hc
    exact List.mem_of_mem_drop (List.mem_of_mem_take hc)
  · intro _; rfl

/-- The scan of an empty slice stores the run `('\0', 0)`. -/
theorem zipCharsLocal_empty (inputChars : List Char) (data : threadData)
    (h : data.startIdx = data.endIdx) :
    zipCharsLocal inputChars data = [⟨NUL, 0⟩] := by
  simp [zipCharsLocal, scanLoop, h, emitLast, scanInit]

/-- Every iteration adds at most one run. -/
theorem length_scan_le (s : List Char) :
    ∀ st : scanState,
      (emitLast (s.foldl scanStep st)).length ≤ st.personalZip.length + 1 + s.length := by
  induction s with
  | nil => intro st; simp [emitLast]
  | cons c cs ih =>
    intro st
    rw [List.foldl_cons]
    refine le_trans (ih _) ?_
    unfold scanStep
    split_ifs <;> simp
    omega

theorem one_le_length_scan (s : List Char) (st : scanState) :
    1 ≤ (emitLast (s.foldl scanStep st)).length := by
  simp [emitLast]

/-- A non-empty slice gives at most as many runs as it has characters. -/
theorem length_scan_init_le (s : List Char) (hs : s ≠ []) :
    (emitLast (s.foldl scanStep scanInit)).length ≤ s.length := by
  cases s with
  | nil => exact absurd rfl hs
  | cons c cs =>
    rw [List.foldl_cons]
    refine le_trans (length_scan_le cs _) ?_
    simp [scanStep, scanInit]
    omega

/-! ## The scan against the reference encoding -/

theorem rle_cons_head (c : Char) (cs : List Char) :
    ∃ k rs, rle (c :: cs) = ⟨c, k + 1⟩ :: rs := by
  simp only [rle]
  cases h : rle cs with
  | nil => exact ⟨0, [], rfl⟩
  | cons r rs =>
    by_cases hr : r.character = c
    · exact ⟨r.occurence, rs, by simp [hr]⟩
    · exact ⟨0, r :: rs, by simp [hr]⟩

theorem rle_replicate_append (p : Char) (rest : List Char) (hrest : rest.head? ≠ some p) :
    ∀ n : Nat, rle (List.replicate (n + 1) p ++ rest) = ⟨p, n + 1⟩ :: rle rest := by
  intro n
  induction n with
  | zero =>
    cases rest with
    | nil => simp [rle]
    | cons c cs =>
      have hc : c ≠ p := by
        intro h
        apply hrest
        simp [h]
      obtain ⟨k, rs, hk⟩ := rle_cons_head c cs
      simp only [List.replicate_one, List.singleton_append, zero_add]
      rw [rle, hk]
      simp [hc]
  | succ n ih =>
    rw [List.replicate_succ, List.cons_append, rle, ih]
    simp

theorem rle_replicate (p : Char) (n : Nat) :
    rle (List.replicate (n + 1) p) = [⟨p, n + 1⟩] := by
  have h := rle_replicate_append p [] (by simp) n
  simpa [rle] using h

/-- Once a run is pending, the scan followed by the final store continues the
reference encoding of the pending run followed by the rest of the slice. -/
theorem scan_eq_rle (s : List Char) :
    ∀ st : scanState, st.prevChar ≠ NUL → 1 ≤ st.charCount → (∀ c ∈ s, c ≠ NUL) →
      emitLast (s.foldl scanStep st) =
        st.personalZip ++ rle (List.replicate st.charCount st.prevChar ++ s) := by
  induction s with
  | nil =>
    intro st _ h1 _
    obtain ⟨n, hn⟩ : ∃ n, st.charCount = n + 1 := ⟨st.charCount - 1, by omega⟩
    simp [emitLast, hn, rle_replicate]
  | cons c cs ih =>
    intro st h0 h1 hs
    obtain ⟨n, hn⟩ : ∃ n, st.charCount = n + 1 := ⟨st.charCount - 1, by omega⟩
    have hc : c ≠ NUL := hs c (by simp)
    have hcs : ∀ x ∈ cs, x ≠ NUL := fun x hx => hs x (by simp [hx])
    rw [List.foldl_cons]
    by_cases hp : st.prevChar = c
    · have hstep : scanStep st c = ⟨st.charCount + 1, st.prevChar, st.personalZip⟩ := by
        simp [scanStep, h0, hp]
      rw [hstep, ih ⟨st.charCount + 1, st.prevChar, st.personalZip⟩ h0 (by simp) hcs]
      simp only
      rw [List.replicate_succ', List.append_assoc, hp]
      rfl
    · have hstep : scanStep st c =
          ⟨1, c, st.personalZip ++ [⟨st.prevChar, st.charCount⟩]⟩ := by
        simp [scanStep, h0, hp]
      rw [hstep, ih ⟨1, c, st.personalZip ++ [(⟨st.prevChar, st.charCount⟩ : zipped_char)]⟩ hc (by simp) hcs]
      simp only [List.replicate_one, List.singleton_append, List.append_assoc]
      rw [hn, rle_replicate_append st.prevChar (c :: cs) (by simpa using fun h => hp h.symm) n]

/-- On a non-empty slice without `'\0'` the worker's private buffer is the
reference encoding of the slice. -/
theorem scan_init_eq_rle (s : List Char) (hs : s ≠ []) (h : ∀ c ∈ s, c ≠ NUL) :
    emitLast (s.foldl scanStep scanInit) = rle s := by
  cases s with
  | nil => exact absurd rfl hs
  | cons c cs =>
    have hc : c ≠ NUL := h c (by simp)
    have hcs : ∀ x ∈ cs, x ≠ NUL := fun x hx => h x (by simp [hx])
    rw [List.foldl_cons]
    have hstep : scanStep scanInit c = ⟨1, c, []⟩ := by simp [scanStep, scanInit]
    rw [hstep, scan_eq_rle cs _ hc (by simp) hcs]
    simp

/-! ## The merge phase -/

theorem writeIdx_zero (lc : List Nat) : writeIdx lc 0 = 0 := rfl

theorem writeIdx_succ (lc : List Nat) (m : Nat) :
    writeIdx lc (m + 1) = writeIdx lc m + lc.getD m 0 := by
  simp [writeIdx, List.range_succ, List.foldl_append]

theorem writeIdx_mono (lc : List Nat) {a b : Nat} (h : a ≤ b) : writeIdx lc a ≤ writeIdx lc b := by
  induction h with
  | refl => exact le_refl _
  | step _ ih => rw [writeIdx_succ]; omega

theorem getD_map_length (P : List (List zipped_char)) (m : Nat) :
    (P.map List.length).getD m 0 = (P.getD m []).length := by
  by_cases h : m < P.length
  · simp [List.getD_eq_getElem?_getD, List.getElem?_eq_getElem h]
  · have h2 : P.length ≤ m := by omega
    simp [List.getD_eq_getElem?_getD, List.getElem?_eq_none h2]

theorem take_succ_flatten (P : List (List zipped_char)) (m : Nat) :
    (P.take (m + 1)).flatten = (P.take m).flatten ++ P.getD m [] := by
  rw [List.take_succ, List.flatten_append]
  by_cases h : m < P.length
  · simp [List.getD_eq_getElem?_getD, List.getElem?_eq_getElem h]
  · have h2 : P.length ≤ m := by omega
    simp [List.getD_eq_getElem?_getD, List.getElem?_eq_none h2]

/-- The copy loop stores `personalZip[count ..]` to the cells `i .. i + n` and
leaves every other cell alone. -/
theorem writeLoop_apply (pz : List zipped_char) :
    ∀ (n i count : Nat) (z : Nat → zipped_char) (k : Nat),
      writeLoop pz n i count z k =
        if i ≤ k ∧ k < i + n then pz.getD (count + (k - i)) default else z k := by
  intro n
  induction n with
  | zero =>
    intro i count z k
    have h : ¬ (i ≤ k ∧ k < i + 0) := by omega
    rw [if_neg h]
    rfl
  | succ n ih =>
    intro i count z k
    rw [writeLoop, ih]
    by_cases hk : k = i
    · subst hk
      simp
    · by_cases h1 : i + 1 ≤ k ∧ k < i + 1 + n
      · have h2 : i ≤ k ∧ k < i + (n + 1) := by omega
        have h3 : count + 1 + (k - (i + 1)) = count + (k - i) := by omega
        simp [h1, h2, h3]
      · have h2 : ¬ (i ≤ k ∧ k < i + (n + 1)) := by omega
        simp [h1, h2, Function.update_noteq hk]

theorem mergeIn_range_succ (lc : List Nat) (P : List (List zipped_char)) (m : Nat)
    (out : Outputs) :
    mergeIn lc P (List.range (m + 1)) out =
      zipCharsMerge lc m (P.getD m []) (mergeIn lc P (List.range m) out) := by
  simp [mergeIn, List.range_succ, List.foldl_append]

theorem runSum_nil (k : Int) : runSum k [] = 0 := rfl

theorem runSum_cons (k : Int) (r : zipped_char) (rs : List zipped_char) :
    runSum k (r :: rs) = (if freqIdx r.character = k then r.occurence else 0) + runSum k rs := by
  simp [runSum]

theorem runSum_append (k : Int) (a b : List zipped_char) :
    runSum k (a ++ b) = runSum k a + runSum k b := by
  simp [runSum]

/-- The frequency loop adds to cell `k` the lengths of the runs indexed `k`. -/
theorem addFrequency_apply (pz : List zipped_char) :
    ∀ (f : Int → Int) (k : Int), isInt (f k) →
      addFrequency pz f k = wrapInt (f k + (runSum k pz : Int)) := by
  induction pz with
  | nil =>
    intro f k hk
    simp [addFrequency, runSum_nil, wrapInt_of_isInt hk]
  | cons r rs ih =>
    intro f k hk
    have hunf : addFrequency (r :: rs) f =
        addFrequency rs (Function.update f (freqIdx r.character)
          (wrapInt (f (freqIdx r.character) + (r.occurence : Int)))) := rfl
    rw [hunf, runSum_cons]
    by_cases h : freqIdx r.character = k
    · subst h
      rw [ih _ _ (by simp [isInt_wrapInt])]
      simp only [Function.update_same, if_true, wrapInt_wrapInt_add]
      congr 1
      push_cast
      ring
    · rw [ih _ _ (by rw [Function.update_noteq (Ne.symm h)]; exact hk)]
      rw [Function.update_noteq (Ne.symm h)]
      simp [h]

theorem map_getD_range (pz : List zipped_char) :
    (List.range pz.length).map (fun j => pz.getD j default) = pz := by
  apply List.ext_getElem
  · simp
  · intro n h1 h2
    simp [List.getD_eq_getElem?_getD, List.getElem?_eq_getElem h2]

theorem writeIdx_eq_length (P : List (List zipped_char)) (m : Nat) :
    writeIdx (P.map List.length) m = (P.take m).flatten.length := by
  induction m with
  | zero => simp [writeIdx_zero]
  | succ m ih =>
    rw [writeIdx_succ, ih, take_succ_flatten, List.length_append, getD_map_length]

/-- After the workers `0 .. m` have merged, the cells below the write index of
worker `m` hold their private buffers one after the other. -/
theorem mergeIn_zipped (P : List (List zipped_char)) (out : Outputs) (m : Nat) :
    (List.range (writeIdx (P.map List.length) m)).map
        (mergeIn (P.map List.length) P (List.range m) out).zippedChars =
      (P.take m).flatten := by
  induction m with
  | zero => simp [writeIdx_zero]
  | succ m ih =>
    rw [mergeIn_range_succ, writeIdx_succ, take_succ_flatten, List.range_add, List.map_append,
      getD_map_length]
    congr 1
    · rw [← ih]
      apply List.map_congr_left
      intro k hk
      have hk2 : k < writeIdx (P.map List.length) m := by simpa using hk
      simp only [zipCharsMerge]
      rw [writeLoop_apply, if_neg (by omega)]
    · rw [List.map_map]
      conv_rhs => rw [← map_getD_range (P.getD m [])]
      apply List.map_congr_left
      intro j hj
      have hj2 : j < (P.getD m []).length := by simpa using hj
      simp only [zipCharsMerge, Function.comp]
      rw [writeLoop_apply, getD_map_length, if_pos (by omega)]
      simp

/-- The merges of the workers `0 .. m` leave the cells from the write index of
worker `m` on untouched. -/
theorem mergeIn_frame (P : List (List zipped_char)) (out : Outputs) (m k : Nat)
    (hk : writeIdx (P.map List.length) m ≤ k) :
    (mergeIn (P.map List.length) P (List.range m) out).zippedChars k = out.zippedChars k := by
  induction m with
  | zero => rfl
  | succ m ih =>
    rw [writeIdx_succ] at hk
    rw [mergeIn_range_succ]
    simp only [zipCharsMerge]
    rw [writeLoop_apply, if_neg (by omega), ih (by omega)]

theorem mergeIn_total (P : List (List zipped_char)) (out : Outputs) (m : Nat) :
    (mergeIn (P.map List.length) P (List.range (m + 1)) out).totalZippedCharCount =
      wrapInt (out.totalZippedCharCount + (writeIdx (P.map List.length) (m + 1) : Int)) := by
  induction m with
  | zero =>
    rw [mergeIn_range_succ, writeIdx_succ, getD_map_length]
    simp [zipCharsMerge, mergeIn, writeIdx_zero]
  | succ m ih =>
    rw [mergeIn_range_succ, writeIdx_succ (m := m + 1), getD_map_length]
    simp only [zipCharsMerge]
    rw [ih, wrapInt_wrapInt_add]
    congr 1
    push_cast
    ring

theorem mergeIn_freq (P : List (List zipped_char)) (out : Outputs) (k : Int)
    (hk : isInt (out.charFrequency k)) (m : Nat) :
    (mergeIn (P.map List.length) P (List.range m) out).charFrequency k =
      wrapInt (out.charFrequency k + (runSum k (P.take m).flatten : Int)) := by
  induction m with
  | zero => simp [mergeIn, runSum_nil, wrapInt_of_isInt hk]
  | succ m ih =>
    rw [mergeIn_range_succ]
    simp only [zipCharsMerge]
    rw [addFrequency_apply _ _ _ (by rw [ih]; exact isInt_wrapInt _), ih, wrapInt_wrapInt_add,
      take_succ_flatten, runSum_append]
    congr 1
    push_cast
    ring

/-! ## The workers of `pzip` -/

theorem length_personalZips (T : Nat) (input : List Char) (N : Nat) :
    (personalZips T input N).length = T := by
  simp [personalZips, dataStructs]

theorem take_personalZips (T : Nat) (input : List Char) (N : Nat) :
    (personalZips T input N).take T = personalZips T input N := by
  rw [List.take_of_length_le]
  rw [length_personalZips]

theorem getD_personalZips (T : Nat) (input : List Char) (N i : Nat) (hi : i < T) :
    (personalZips T input N).getD i [] = zipCharsLocal input (mkThreadData T N i) := by
  have h : i < (personalZips T input N).length := by rw [length_personalZips]; exact hi
  rw [List.getD_eq_getElem?_getD, List.getElem?_eq_getElem h]
  simp [personalZips, dataStructs]

theorem personalZips_eq_map (T : Nat) (input : List Char) (N : Nat) :
    personalZips T input N =
      (List.range T).map (fun i => zipCharsLocal input (mkThreadData T N i)) := by
  simp [personalZips, dataStructs]

/-- Every slice `pzip` hands out ends inside the input. -/
theorem endIdx_le (T N i : Nat) (hi : i < T) : (mkThreadData T N i).endIdx ≤ N := by
  simp only [mkThreadData]
  calc N / T * i + N / T = N / T * (i + 1) := by ring
    _ ≤ N / T * T := Nat.mul_le_mul_left _ hi
    _ ≤ N := Nat.div_mul_le_self N T

theorem startIdx_le_endIdx (T N i : Nat) :
    (mkThreadData T N i).startIdx ≤ (mkThreadData T N i).endIdx := by
  simp [mkThreadData]

theorem slices_flatten (l : List Char) (b : Nat) :
    ∀ T : Nat, ((List.range T).map (fun i => sliceOf l (b * i) (b * i + b))).flatten =
      l.take (T * b) := by
  intro T
  induction T with
  | zero => simp
  | succ T ih =>
    rw [List.range_succ, List.map_append, List.flatten_append, ih]
    have h : (T + 1) * b = T * b + b := by ring
    rw [h, List.take_add]
    simp [sliceOf, Nat.mul_comm]

theorem expand_flatten (L : List (List zipped_char)) :
    expand L.flatten = (L.map expand).flatten := by
  induction L with
  | nil => rfl
  | cons a L ih => simp [expand_append, ih]

/-- Decoding the private buffers of all workers, in worker order, gives the
processed part of the input. -/
theorem expand_personalZips (T : Nat) (input : List Char)
    (hlow : ∀ c ∈ input, isLower c) :
    expand (personalZips T input input.length).flatten =
      input.take (T * (input.length / T)) := by
  rw [expand_flatten, personalZips_eq_map, List.map_map, ← slices_flatten]
  congr 1
  apply List.map_congr_left
  intro i hi
  have hi2 : i < T := by simpa using hi
  simp only [Function.comp]
  rw [expand_zipCharsLocal _ _ (startIdx_le_endIdx _ _ _) (endIdx_le _ _ _ hi2) hlow]
  rfl

theorem length_zipCharsLocal_pos (input : List Char) (d : threadData) :
    1 ≤ (zipCharsLocal input d).length := by
  simp [zipCharsLocal, emitLast]

theorem length_zipCharsLocal_le (input : List Char) (d : threadData)
    (hlt : d.startIdx < d.endIdx) (hend : d.endIdx ≤ input.length) :
    (zipCharsLocal input d).length ≤ d.endIdx - d.startIdx := by
  unfold zipCharsLocal
  rw [scanLoop_eq_foldl _ _ _ (le_of_lt hlt) hend]
  have hlen : (sliceOf input d.startIdx d.endIdx).length = d.endIdx - d.startIdx := by
    simp [sliceOf]
    omega
  have hne : sliceOf input d.startIdx d.endIdx ≠ [] := by
    intro h
    rw [h] at hlen
    simp at hlen
    omega
  rw [← hlen]
  exact length_scan_init_le _ hne

/-- The number of runs all workers produce: at most the input length when
every slice is non-empty. -/
theorem length_flatten_le (T : Nat) (input : List Char) (hT : 1 ≤ T) (hTN : T ≤ input.length) :
    (personalZips T input input.length).flatten.length ≤ input.length := by
  have hb : 1 ≤ input.length / T := (Nat.one_le_div_iff (by omega)).mpr hTN
  rw [List.length_flatten]
  have hbound : ∀ x ∈ (personalZips T input input.length).map List.length,
      x ≤ input.length / T := by
    intro x hx
    rw [personalZips_eq_map] at hx
    simp only [List.map_map, List.mem_map, List.mem_range, Function.comp] at hx
    obtain ⟨i, hi, rfl⟩ := hx
    refine le_trans (length_zipCharsLocal_le _ _ ?_ (endIdx_le _ _ _ hi)) ?_
    · simp only [mkThreadData]; omega
    · simp [mkThreadData]
  have h := List.sum_le_card_nsmul _ _ hbound
  simp only [List.length_map, length_personalZips, smul_eq_mul] at h
  exact le_trans h (Nat.mul_div_le _ _)

/-- The number of runs all workers produce when the slices are empty: one per
worker. -/
theorem length_flatten_empty (T : Nat) (input : List Char) (hNT : input.length < T) :
    (personalZips T input input.length).flatten.length = T := by
  have hb : input.length / T = 0 := Nat.div_eq_of_lt hNT
  rw [List.length_flatten, personalZips_eq_map, List.map_map]
  have hconst : ∀ i ∈ List.range T,
      (List.length ∘ fun i => zipCharsLocal input (mkThreadData T input.length i)) i = 1 := by
    intro i _
    simp only [Function.comp]
    rw [zipCharsLocal_empty]
    · rfl
    · simp [mkThreadData, hb]
  rw [List.map_congr_left hconst]
  simp

theorem length_flatten_lt (T : Nat) (input : List Char) (hT : 1 ≤ T)
    (hTint : T < 2147483648) (hN : input.length < 2147483648) :
    (personalZips T input input.length).flatten.length < 2147483648 := by
  by_cases h : T ≤ input.length
  · exact lt_of_le_of_lt (length_flatten_le T input hT h) hN
  · rw [length_flatten_empty T input (by omega)]
    exact hTint

/-! ## What `pzip` leaves in the outputs -/

/-- The number of runs the workers store: the sum of `localCounts`. -/
theorem writeIdx_localCounts (T : Nat) (input : List Char) (N : Nat) :
    writeIdx (localCountsOf T input N) T = (personalZips T input N).flatten.length := by
  unfold localCountsOf
  rw [writeIdx_eq_length, take_personalZips]

/-- The run count after `pzip`: the entry value plus the number of runs stored,
as an `int`. -/
theorem pzip_total (T : Nat) (input : List Char) (N : Nat) (out : Outputs) (hT : 1 ≤ T) :
    (pzip T input N out).totalZippedCharCount =
      wrapInt (out.totalZippedCharCount + ((personalZips T input N).flatten.length : Int)) := by
  obtain ⟨m, rfl⟩ : ∃ m, T = m + 1 := ⟨T - 1, by omega⟩
  unfold pzip localCountsOf
  rw [mergeIn_total, writeIdx_eq_length, take_personalZips]

/-- The cells `0 .. number of runs stored` of the run list after `pzip`. -/
theorem pzip_zipped (T : Nat) (input : List Char) (N : Nat) (out : Outputs) :
    (List.range (personalZips T input N).flatten.length).map (pzip T input N out).zippedChars =
      (personalZips T input N).flatten := by
  have h := mergeIn_zipped (personalZips T input N) out T
  rw [writeIdx_eq_length, take_personalZips] at h
  exact h

theorem writeIdx_eq_sum (lc : List Nat) (m : Nat) : writeIdx lc m = (lc.take m).sum := by
  induction m with
  | zero => simp [writeIdx_zero]
  | succ m ih =>
    rw [writeIdx_succ, ih, List.take_succ, List.sum_append]
    by_cases h : m < lc.length
    · simp [List.getD_eq_getElem?_getD, List.getElem?_eq_getElem h]
    · have h2 : lc.length ≤ m := by omega
      simp [List.getD_eq_getElem?_getD, List.getElem?_eq_none h2]

theorem writtenIndices_eq (lc : List Nat) :
    ∀ T : Nat, (List.range T).flatMap (writeRange lc) = List.range (writeIdx lc T) := by
  intro T
  induction T with
  | zero => simp [writeIdx_zero]
  | succ T ih =>
    rw [List.range_succ, List.flatMap_append, ih, writeIdx_succ, List.range_add]
    simp [writeRange, List.range'_eq_map_range]

theorem sum_localCountsOf (T : Nat) (input : List Char) (N : Nat) :
    (localCountsOf T input N).sum = (personalZips T input N).flatten.length := by
  rw [← writeIdx_localCounts, writeIdx_eq_sum, List.take_of_length_le]
  simp [localCountsOf, length_personalZips]

/-- The runs the workers have stored are their private buffers, in worker
order, whatever the outputs held on entry. -/
theorem pzip_emittedRuns (T : Nat) (input : List Char) (N : Nat) (out : Outputs) :
    emittedRuns T input N (pzip T input N out) = (personalZips T input N).flatten := by
  unfold emittedRuns writtenIndices
  rw [writtenIndices_eq, writeIdx_localCounts]
  exact pzip_zipped T input N out

/-- With the count 0 on entry the caller reads the private buffers of the
workers, in worker order. -/
theorem pzip_outputRuns (T : Nat) (input : List Char) (out : Outputs) (hT : 1 ≤ T)
    (hTint : T < 2147483648) (hN : input.length < 2147483648)
    (h0 : out.totalZippedCharCount = 0) :
    outputRuns (pzip T input input.length out) = (personalZips T input input.length).flatten := by
  unfold outputRuns
  rw [pzip_total T input _ out hT, h0, zero_add,
    wrapInt_of_isInt (isInt_natCast (length_flatten_lt T input hT hTint hN)), Int.toNat_ofNat]
  exact pzip_zipped T input _ out

/-! ## Frequencies -/

theorem freqIdx_inj {a b : Char} (h : freqIdx a = freqIdx b) : a = b := by
  unfold freqIdx at h
  have h2 : a.toNat = b.toNat := by omega
  apply Char.ext
  apply UInt32.eq_of_val_eq
  apply Fin.ext
  exact h2

theorem runSum_eq_lengthOf (c : Char) (runs : List zipped_char) :
    runSum (freqIdx c) runs = lengthOf c runs := by
  induction runs with
  | nil => rfl
  | cons r rs ih =>
    rw [runSum_cons, ih]
    by_cases h : r.character = c
    · simp [lengthOf, h]
    · have h2 : freqIdx r.character ≠ freqIdx c := fun e => h (freqIdx_inj e)
      simp [lengthOf, h, h2]

theorem lengthOf_eq_count (c : Char) (runs : List zipped_char) :
    lengthOf c runs = (expand runs).count c := by
  induction runs with
  | nil => rfl
  | cons r rs ih =>
    have hexp : expand (r :: rs) = List.replicate r.occurence r.character ++ expand rs := by
      simp [expand]
    rw [hexp, List.count_append, ← ih, List.count_replicate]
    by_cases h : r.character = c
    · simp [lengthOf, h]
    · simp [lengthOf, h]

theorem totalLength_eq_length (runs : List zipped_char) :
    totalLength runs = (expand runs).length := by
  induction runs with
  | nil => rfl
  | cons r rs ih =>
    have hexp : expand (r :: rs) = List.replicate r.occurence r.character ++ expand rs := by
      simp [expand]
    rw [hexp, List.length_append, ← ih]
    simp [totalLength]

/-- The frequency cell `k` after `pzip`, for a cell holding an `int` on entry. -/
theorem pzip_freq (T : Nat) (input : List Char) (N : Nat) (out : Outputs) (k : Int)
    (hk : isInt (out.charFrequency k)) :
    (pzip T input N out).charFrequency k =
      wrapInt (out.charFrequency k + (runSum k (personalZips T input N).flatten : Int)) := by
  have h := mergeIn_freq (personalZips T input N) out k hk T
  rw [take_personalZips] at h
  exact h

theorem runSum_eq_countP (k : Int) (runs : List zipped_char) :
    runSum k runs = (expand runs).countP (fun x => decide (freqIdx x = k)) := by
  induction runs with
  | nil => rfl
  | cons r rs ih =>
    have hexp : expand (r :: rs) = List.replicate r.occurence r.character ++ expand rs := by
      simp [expand]
    rw [hexp, List.countP_append, ← ih, List.countP_replicate, runSum_cons]
    by_cases h : freqIdx r.character = k <;> simp [h]

theorem indicator_sum : ∀ j < 26,
    ((List.range 26).map (fun k => if j = k then 1 else 0)).sum = 1 := by
  decide

theorem freqIdx_of_isLower {c : Char} (hc : isLower c) :
    ∃ j : Nat, j < 26 ∧ freqIdx c = (j : Int) := by
  unfold isLower at hc
  refine ⟨c.toNat - 97, by omega, ?_⟩
  unfold freqIdx
  omega

/-- Over a list of lowercase letters the 26 per-letter counts add up to the
length of the list. -/
theorem sum_countP_freqIdx (l : List Char) (hl : ∀ c ∈ l, isLower c) :
    ((List.range 26).map
      (fun k : Nat => l.countP (fun x => decide (freqIdx x = (k : Int))))).sum = l.length := by
  induction l with
  | nil => simp
  | cons x xs ih =>
    obtain ⟨j, hj, hx⟩ := freqIdx_of_isLower (hl x (by simp))
    have hxs : ∀ c ∈ xs, isLower c := fun c hc => hl c (by simp [hc])
    have hfun : (fun k : Nat => (x :: xs).countP (fun y => decide (freqIdx y = (k : Int)))) =
        fun k : Nat =>
          xs.countP (fun y => decide (freqIdx y = (k : Int))) + (if j = k then 1 else 0) := by
      funext k
      rw [List.countP_cons]
      simp only [hx, decide_eq_true_eq, Nat.cast_inj]
    rw [hfun, List.sum_map_add, ih hxs, indicator_sum j hj, List.length_cons]

theorem length_expand_le (T : Nat) (input : List Char) (hlow : ∀ c ∈ input, isLower c) :
    (expand (personalZips T input input.length).flatten).length ≤ input.length := by
  rw [expand_personalZips T input hlow, List.length_take]
  exact Nat.min_le_right _ _

/-- A frequency slot that is 0 on entry holds after `pzip` the lengths of the
runs indexed by the slot. -/
theorem pzip_freq_zero (T : Nat) (input : List Char) (out : Outputs) (k : Int)
    (hN : input.length < 2147483648) (hlow : ∀ c ∈ input, isLower c)
    (hk : out.charFrequency k = 0) :
    (pzip T input input.length out).charFrequency k =
      (runSum k (personalZips T input input.length).flatten : Int) := by
  rw [pzip_freq T input _ out k (by rw [hk]; decide), hk, zero_add]
  apply wrapInt_of_isInt
  apply isInt_natCast
  rw [runSum_eq_countP]
  exact lt_of_le_of_lt (le_trans (List.countP_le_length _) (length_expand_le T input hlow)) hN

theorem tableSum_eq (f : Int → Int) (g : Nat → Nat) (h : ∀ k : Nat, k < 26 → f (k : Int) = g k) :
    tableSum f = (((List.range 26).map g).sum : Nat) := by
  unfold tableSum
  rw [Nat.cast_list_sum, List.map_map]
  refine congrArg List.sum (List.map_congr_left ?_)
  intro k hk
  exact h k (by simpa using hk)

/-! ## Tiling of the run list -/

theorem writeIdx_cons (n : Nat) (ns : List Nat) (i : Nat) :
    writeIdx (n :: ns) (i + 1) = n + writeIdx ns i := by
  simp [writeIdx_eq_sum]

theorem prefixSumPass_eq (lc : List Nat) :
    ∀ acc : Nat, prefixSumPass acc lc =
      (List.range (lc.length + 1)).map (fun i => acc + writeIdx lc i) := by
  induction lc with
  | nil => intro acc; simp [prefixSumPass, List.range_succ, writeIdx_zero]
  | cons n ns ih =>
    intro acc
    rw [prefixSumPass, ih, List.length_cons, List.range_succ_eq_map (ns.length + 1),
      List.map_cons, List.map_map]
    simp only [writeIdx_zero, Nat.add_zero, List.cons.injEq, true_and]
    apply List.map_congr_left
    intro i _
    simp only [Function.comp, writeIdx_cons]
    omega

/-- Every index below the write index of worker `m` lies in the range of
exactly one worker below `m`. -/
theorem exists_writeRange (lc : List Nat) :
    ∀ (m k : Nat), k < writeIdx lc m → ∃ i, i < m ∧ k ∈ writeRange lc i := by
  intro m
  induction m with
  | zero => intro k hk; simp [writeIdx_zero] at hk
  | succ m ih =>
    intro k hk
    by_cases h : k < writeIdx lc m
    · obtain ⟨i, hi, hmem⟩ := ih k h
      exact ⟨i, by omega, hmem⟩
    · refine ⟨m, by omega, ?_⟩
      rw [writeIdx_succ] at hk
      simp only [writeRange, List.mem_range'_1]
      omega

theorem writeRange_lt (lc : List Nat) (i m k : Nat) (hi : i < m) (hk : k ∈ writeRange lc i) :
    k < writeIdx lc m := by
  simp only [writeRange, List.mem_range'_1] at hk
  have h := writeIdx_mono lc (show i + 1 ≤ m from hi)
  rw [writeIdx_succ] at h
  omega

theorem writeRange_disjoint (lc : List Nat) (i j : Nat) (hij : i < j) :
    List.Disjoint (writeRange lc i) (writeRange lc j) := by
  intro k hki hkj
  have h1 := writeRange_lt lc i j k hij hki
  simp only [writeRange, List.mem_range'_1] at hkj
  omega

/-- The copy loop of worker `id` stores to no cell outside its range. -/
theorem zipCharsMerge_frame (lc : List Nat) (id : Nat) (pz : List zipped_char) (out : Outputs)
    (k : Nat) (hk : k ∉ writeRange lc id) :
    (zipCharsMerge lc id pz out).zippedChars k = out.zippedChars k := by
  simp only [writeRange, List.mem_range'_1] at hk
  simp only [zipCharsMerge]
  rw [writeLoop_apply, if_neg hk]

/-! ## Slice boundaries -/

theorem scanStep_prevChar (st : scanState) (c : Char) : (scanStep st c).prevChar = c := by
  unfold scanStep
  split_ifs with h0 h1
  · rfl
  · exact h1
  · rfl

/-- After a non-empty scan the pending run carries the last character read. -/
theorem prevChar_foldl (s : List Char) (c : Char) (hs : s.getLast? = some c) :
    ∀ st : scanState, (s.foldl scanStep st).prevChar = c := by
  induction s with
  | nil => simp at hs
  | cons x xs ih =>
    intro st
    cases xs with
    | nil =>
      simp at hs
      simp [scanStep_prevChar, hs]
    | cons y ys =>
      rw [List.foldl_cons]
      apply ih
      simpa [List.getLast?_cons_cons] using hs

theorem length_workerSlice (T : Nat) (input : List Char) (i : Nat) (hi : i < T) :
    (workerSlice T input i).length = input.length / T := by
  have h := endIdx_le T input.length i hi
  simp only [mkThreadData] at h
  simp only [workerSlice, sliceOf, mkThreadData, List.length_take, List.length_drop]
  generalize input.length / T * i = p at h ⊢
  generalize input.length / T = b at h ⊢
  omega

theorem workerSlice_ne_nil (T : Nat) (input : List Char) (i : Nat) (hT : 1 ≤ T)
    (hTN : T ≤ input.length) (hi : i < T) : workerSlice T input i ≠ [] := by
  have hb : 1 ≤ input.length / T := (Nat.one_le_div_iff (by omega)).mpr hTN
  intro h
  have hl := length_workerSlice T input i hi
  rw [h] at hl
  simp at hl
  omega

theorem mem_workerSlice (T : Nat) (input : List Char) (i : Nat) (c : Char)
    (hc : c ∈ workerSlice T input i) : c ∈ input := by
  unfold workerSlice sliceOf at hc
  exact List.mem_of_mem_drop (List.mem_of_mem_take hc)

theorem zipCharsLocal_eq_foldl (T : Nat) (input : List Char) (i : Nat) (hi : i < T) :
    zipCharsLocal input (mkThreadData T input.length i) =
      emitLast ((workerSlice T input i).foldl scanStep scanInit) := by
  unfold zipCharsLocal workerSlice
  rw [scanLoop_eq_foldl _ _ _ (startIdx_le_endIdx _ _ _) (endIdx_le _ _ _ hi)]

/-- With no empty slice, the private buffer of worker `i` is the reference
encoding of its slice. -/
theorem zipCharsLocal_eq_rle (T : Nat) (input : List Char) (i : Nat) (hT : 1 ≤ T)
    (hTN : T ≤ input.length) (hi : i < T) (hlow : ∀ c ∈ input, isLower c) :
    zipCharsLocal input (mkThreadData T input.length i) = rle (workerSlice T input i) := by
  rw [zipCharsLocal_eq_foldl T input i hi]
  apply scan_init_eq_rle _ (workerSlice_ne_nil T input i hT hTN hi)
  intro c hc
  exact isLower_ne_NUL (hlow c (mem_workerSlice T input i c hc))

theorem personalZips_eq_rle (T : Nat) (input : List Char) (hT : 1 ≤ T)
    (hTN : T ≤ input.length) (hlow : ∀ c ∈ input, isLower c) :
    personalZips T input input.length =
      (List.range T).map (fun i => rle (workerSlice T input i)) := by
  rw [personalZips_eq_map]
  apply List.map_congr_left
  intro i hi
  exact zipCharsLocal_eq_rle T input i hT hTN (by simpa using hi) hlow

theorem split_at_two (P : List (List zipped_char)) (i : Nat) (hi : i + 1 < P.length) :
    P = P.take i ++ P.getD i [] :: P.getD (i + 1) [] :: P.drop (i + 2) := by
  have h1 : i < P.length := by omega
  conv_lhs => rw [← List.take_append_drop i P]
  rw [List.drop_eq_getElem_cons h1, List.drop_eq_getElem_cons hi]
  simp [List.getD_eq_getElem?_getD, List.getElem?_eq_getElem h1, List.getElem?_eq_getElem hi]

/-- Every run of the reference encoding has a positive length. -/
theorem rle_pos (s : List Char) : ∀ r ∈ rle s, 1 ≤ r.occurence := by
  induction s with
  | nil => simp [rle]
  | cons c cs ih =>
    simp only [rle]
    cases h : rle cs with
    | nil => simp
    | cons r rs =>
      rw [h] at ih
      by_cases hr : r.character = c
      · simp only [hr, if_true, List.mem_cons]
        rintro x (rfl | hx)
        · simp
        · exact ih x (by simp [hx])
      · simp only [hr, if_false, List.mem_cons]
        rintro x (rfl | rfl | hx)
        · simp
        · exact ih x (by simp)
        · exact ih x (by simp [hx])

/-- Claim C6 (boundary non-merging): for every `T >= 2` and input of lowercase
letters with `N >= T` (`T`, `N` C ints), the output run list is the
concatenation, in ascending worker id, of the independent run-length encodings
of each worker's slice (also as read through `outputRunCount` when that is 0 on
entry); hence whenever the last character of slice `i` equals the first
character of slice `i+1`, the output contains two adjacent runs with that
character, the first ending the block of worker `i`; and `"aaaa"` with `T = 2`
gives `[(a,2),(a,2)]`. -/
theorem C6_boundary_non_merging (n_threads : Nat) (input_chars : List Char) (out : Outputs)
    (hT : 2 ≤ n_threads) (hTint : n_threads < 2147483648)
    (hN : input_chars.length < 2147483648) (hTN : n_threads ≤ input_chars.length)
    (hlow : ∀ c ∈ input_chars, isLower c) :
    emittedRuns n_threads input_chars input_chars.length
          (pzip n_threads input_chars input_chars.length out) =
        (List.range n_threads).flatMap (fun i => rle (workerSlice n_threads input_chars i))
    ∧ (out.totalZippedCharCount = 0 →
        outputRuns (pzip n_threads input_chars input_chars.length out) =
          (List.range n_threads).flatMap (fun i => rle (workerSlice n_threads input_chars i)))
    ∧ (∀ (i : Nat) (c : Char), i + 1 < n_threads →
        (workerSlice n_threads input_chars i).getLast? = some c →
        (workerSlice n_threads input_chars (i + 1)).head? = some c →
        ∃ (pre : List zipped_char) (r1 r2 : zipped_char) (post : List zipped_char),
          emittedRuns n_threads input_chars input_chars.length
              (pzip n_threads input_chars input_chars.length out) =
            pre ++ r1 :: r2 :: post
          ∧ r1.character = c ∧ r2.character = c ∧ 1 ≤ r1.occurence ∧ 1 ≤ r2.occurence
          ∧ pre.length + 1 =
            writeIdx (localCountsOf n_threads input_chars input_chars.length) (i + 1))
    ∧ outputRuns (pzip 2 ['a', 'a', 'a', 'a'] 4 zeroOutputs) = [⟨'a', 2⟩, ⟨'a', 2⟩] := by
  have hT1 : 1 ≤ n_threads := by omega
  have hruns := pzip_emittedRuns n_threads input_chars input_chars.length out
  have hflat : (personalZips n_threads input_chars input_chars.length).flatten =
      (List.range n_threads).flatMap (fun i => rle (workerSlice n_threads input_chars i)) := by
    rw [personalZips_eq_rle n_threads input_chars hT1 hTN hlow, List.flatMap_def]
  refine ⟨?_, ?_, ?_, by decide⟩
  · rw [hruns, hflat]
  · intro h0
    rw [pzip_outputRuns n_threads input_chars out hT1 hTint hN h0, hflat]
  · intro i c hi hlast hhead
    have hi0 : i < n_threads := by omega
    have hPi : (personalZips n_threads input_chars input_chars.length).getD i [] =
        emitLast ((workerSlice n_threads input_chars i).foldl scanStep scanInit) := by
      rw [getD_personalZips _ _ _ _ hi0, zipCharsLocal_eq_foldl _ _ _ hi0]
    have hPi_rle : (personalZips n_threads input_chars input_chars.length).getD i [] =
        rle (workerSlice n_threads input_chars i) := by
      rw [getD_personalZips _ _ _ _ hi0, zipCharsLocal_eq_rle _ _ _ hT1 hTN hi0 hlow]
    have hprev := prevChar_foldl (workerSlice n_threads input_chars i) c hlast scanInit
    obtain ⟨cs, hcs⟩ : ∃ cs, workerSlice n_threads input_chars (i + 1) = c :: cs := by
      cases hw : workerSlice n_threads input_chars (i + 1) with
      | nil => rw [hw] at hhead; simp at hhead
      | cons x xs =>
        rw [hw] at hhead
        simp at hhead
        exact ⟨xs, by rw [hhead]⟩
    obtain ⟨k, rs, hk⟩ := rle_cons_head c cs
    have hPi1 : (personalZips n_threads input_chars input_chars.length).getD (i + 1) [] =
        ⟨c, k + 1⟩ :: rs := by
      rw [getD_personalZips _ _ _ _ hi, zipCharsLocal_eq_rle _ _ _ hT1 hTN hi hlow, hcs, hk]
    have hsplit := split_at_two (personalZips n_threads input_chars input_chars.length) i
      (by rw [length_personalZips]; exact hi)
    refine ⟨((personalZips n_threads input_chars input_chars.length).take i).flatten ++
        ((workerSlice n_threads input_chars i).foldl scanStep scanInit).personalZip,
      ⟨((workerSlice n_threads input_chars i).foldl scanStep scanInit).prevChar,
       ((workerSlice n_threads input_chars i).foldl scanStep scanInit).charCount⟩,
      ⟨c, k + 1⟩,
      rs ++ ((personalZips n_threads input_chars input_chars.length).drop (i + 2)).flatten,
      ?_, hprev, rfl, ?_, by simp, ?_⟩
    · rw [hruns]
      conv_lhs => rw [hsplit]
      rw [hPi, hPi1]
      simp [emitLast]
    · apply rle_pos (workerSlice n_threads input_chars i)
      rw [← hPi_rle, hPi]
      simp [emitLast]
    · unfold localCountsOf
      rw [writeIdx_eq_length, take_succ_flatten, hPi]
      simp [emitLast]
      omega

/-- Instance of C6: `"abbbba"` with three workers; the slices `"ab"`, `"bb"`,
`"ba"` meet in `b` twice. -/
theorem C6_boundary_non_merging_witness :
    (2 ≤ 3 ∧ 3 < 2147483648 ∧ ['a', 'b', 'b', 'b', 'b', 'a'].length < 2147483648
      ∧ 3 ≤ ['a', 'b', 'b', 'b', 'b', 'a'].length
      ∧ (∀ c ∈ ['a', 'b', 'b', 'b', 'b', 'a'], isLower c))
    ∧ emittedRuns 3 ['a', 'b', 'b', 'b', 'b', 'a'] ['a', 'b', 'b', 'b', 'b', 'a'].length
          (pzip 3 ['a', 'b', 'b', 'b', 'b', 'a']
            ['a', 'b', 'b', 'b', 'b', 'a'].length zeroOutputs) =
        (List.range 3).flatMap (fun i => rle (workerSlice 3 ['a', 'b', 'b', 'b', 'b', 'a'] i))
    ∧ outputRuns (pzip 3 ['a', 'b', 'b', 'b', 'b', 'a'] 6 zeroOutputs) =
        [⟨'a', 1⟩, ⟨'b', 1⟩, ⟨'b', 2⟩, ⟨'b', 1⟩, ⟨'a', 1⟩] :=
  ⟨by decide,
   (C6_boundary_non_merging 3 ['a', 'b', 'b', 'b', 'b', 'a'] zeroOutputs
     (by decide) (by decide) (by decide) (by decide) (by decide)).1,
   by decide⟩

/-! ## Truncation -/

/-- The scanning loop reads the input only at the indices of its slice. -/
theorem scanLoop_congr (l1 l2 : List Char) (startIdx endIdx : Nat)
    (h : ∀ i, startIdx ≤ i → i < endIdx → l1[i]? = l2[i]?) :
    scanLoop l1 startIdx endIdx = scanLoop l2 startIdx endIdx := by
  unfold scanLoop
  apply List.foldl_ext
  intro st i hi
  simp only [List.mem_range'_1] at hi
  rw [List.getD_eq_getElem?_getD, List.getD_eq_getElem?_getD, h i hi.1 (by omega)]

theorem personalZips_congr (T N : Nat) (l1 l2 : List Char)
    (h : ∀ i, i < N / T * T → l1[i]? = l2[i]?) :
    personalZips T l1 N = personalZips T l2 N := by
  rw [personalZips_eq_map, personalZips_eq_map]
  apply List.map_congr_left
  intro i hi
  have hi2 : i < T := by simpa using hi
  unfold zipCharsLocal
  rw [scanLoop_congr l1 l2]
  intro j _ hj
  apply h
  have hend : N / T * i + N / T ≤ N / T * T := by
    calc N / T * i + N / T = N / T * (i + 1) := by ring
      _ ≤ N / T * T := Nat.mul_le_mul_left _ hi2
  simp only [mkThreadData] at hj
  omega

/-- Claim C7 (truncation): for every `T >= 1` and input of length `N`, the
characters at indices `>= (N/T)*T` do not influence any output: `pzip` on the
input and on any other input of the same length that agrees with it on the
indices `< (N/T)*T`, from the same initial outputs, produce the same run list,
run count and frequency table.  And `"aaabbbccd"` with `T = 2` gives the runs
`[(a,3),(b,1),(b,2),(c,2)]`, run count 4 and the frequencies
`a=3, b=3, c=2`, all others 0. -/
theorem C7_truncation (n_threads : Nat) (input_chars other_chars : List Char) (out : Outputs)
    (_hT : 1 ≤ n_threads) (_hlen : other_chars.length = input_chars.length)
    (hagree : ∀ i, i < input_chars.length / n_threads * n_threads →
      input_chars[i]? = other_chars[i]?) :
    pzip n_threads input_chars input_chars.length out =
        pzip n_threads other_chars input_chars.length out
    ∧ outputRuns (pzip 2 ['a', 'a', 'a', 'b', 'b', 'b', 'c', 'c', 'd'] 9 zeroOutputs) =
        [⟨'a', 3⟩, ⟨'b', 1⟩, ⟨'b', 2⟩, ⟨'c', 2⟩]
    ∧ (pzip 2 ['a', 'a', 'a', 'b', 'b', 'b', 'c', 'c', 'd'] 9
        zeroOutputs).totalZippedCharCount = 4
    ∧ (List.range 26).map (fun k : Nat =>
        (pzip 2 ['a', 'a', 'a', 'b', 'b', 'b', 'c', 'c', 'd'] 9 zeroOutputs).charFrequency k) =
        [3, 3, 2, 0, 0, 0, 0, 0, 0, 0, 0, 0, 0, 0, 0, 0, 0, 0, 0, 0, 0, 0, 0, 0, 0, 0] := by
  refine ⟨?_, by decide, by decide, by decide⟩
  unfold pzip localCountsOf
  rw [personalZips_congr n_threads input_chars.length input_chars other_chars hagree]

/-- Instance of C7: `"aaabbbccd"` and `"aaabbbccz"` with two workers. -/
theorem C7_truncation_witness :
    (1 ≤ 2
      ∧ ['a', 'a', 'a', 'b', 'b', 'b', 'c', 'c', 'z'].length =
          ['a', 'a', 'a', 'b', 'b', 'b', 'c', 'c', 'd'].length
      ∧ (∀ i, i < ['a', 'a', 'a', 'b', 'b', 'b', 'c', 'c', 'd'].length / 2 * 2 →
          ['a', 'a', 'a', 'b', 'b', 'b', 'c', 'c', 'd'][i]? =
            ['a', 'a', 'a', 'b', 'b', 'b', 'c', 'c', 'z'][i]?))
    ∧ pzip 2 ['a', 'a', 'a', 'b', 'b', 'b', 'c', 'c', 'd']
          ['a', 'a', 'a', 'b', 'b', 'b', 'c', 'c', 'd'].length zeroOutputs =
        pzip 2 ['a', 'a', 'a', 'b', 'b', 'b', 'c', 'c', 'z']
          ['a', 'a', 'a', 'b', 'b', 'b', 'c', 'c', 'd'].length zeroOutputs :=
  ⟨by decide,
   (C7_truncation 2 ['a', 'a', 'a', 'b', 'b', 'b', 'c', 'c', 'd']
     ['a', 'a', 'a', 'b', 'b', 'b', 'c', 'c', 'z'] zeroOutputs
     (by decide) (by decide) (by decide)).1⟩

/-! ## Empty slices, the run count and the capacity of the run list -/

/-- Claim C8 (empty-slice handling), evaluated on the code: with two workers on
the one-character input `"a"` both slices are empty, yet each worker leaves one
run `('\0', 0)` in its private buffer, publishes the local count 1, adds 1 to
the run count and stores that run to a cell of the run list.  The claim
requires zero runs from such a worker. -/
theorem C8_empty_slice_emits_run :
    (mkThreadData 2 1 0).startIdx = (mkThreadData 2 1 0).endIdx
    ∧ (mkThreadData 2 1 1).startIdx = (mkThreadData 2 1 1).endIdx
    ∧ zipCharsLocal ['a'] (mkThreadData 2 1 0) = [⟨NUL, 0⟩]
    ∧ zipCharsLocal ['a'] (mkThreadData 2 1 1) = [⟨NUL, 0⟩]
    ∧ localCountsOf 2 ['a'] 1 = [1, 1]
    ∧ (pzip 2 ['a'] 1 markedOutputs).totalZippedCharCount = 2
    ∧ markedOutputs.zippedChars 0 = ⟨'q', 9⟩
    ∧ (pzip 2 ['a'] 1 markedOutputs).zippedChars 0 = ⟨NUL, 0⟩
    ∧ (pzip 2 ['a'] 1 markedOutputs).zippedChars 1 = ⟨NUL, 0⟩
    ∧ outputRuns (pzip 2 ['a'] 1 markedOutputs) = [⟨NUL, 0⟩, ⟨NUL, 0⟩] := by
  decide

/-- With no empty slice the workers store to cells below the input length. -/
theorem writtenIndices_lt (T : Nat) (input : List Char) (hT : 1 ≤ T) (hTN : T ≤ input.length) :
    ∀ k ∈ writtenIndices T input input.length, k < input.length := by
  intro k hk
  unfold writtenIndices at hk
  rw [writtenIndices_eq, writeIdx_localCounts] at hk
  exact lt_of_lt_of_le (List.mem_range.mp hk) (length_flatten_le T input hT hTN)

/-- Claim C9 as stated fails: entered with the run count 5, `pzip` on `"a"`
with one worker stores one run and leaves the count 6. -/
theorem C9_counterexample :
    (pzip 1 ['a'] 1 ⟨fun _ => ⟨NUL, 0⟩, 5, fun _ => 0⟩).totalZippedCharCount = 6
    ∧ (localCountsOf 1 ['a'] 1).sum = 1
    ∧ writtenIndices 1 ['a'] 1 = [0]
    ∧ (pzip 1 ['a'] 1 ⟨fun _ => ⟨NUL, 0⟩, 5, fun _ => 0⟩).totalZippedCharCount ≠
        (((localCountsOf 1 ['a'] 1).sum : Nat) : Int) := by
  decide

/-- Claim C9, amended: for every input and every thread count `T >= 1`, `pzip`
adds to `outputRunCount` the exact number of runs written into `outputRuns`,
which is the sum of the workers' local run counts: the cells written are
`0 .. sum`, the count ends at the entry value plus the sum as an `int`, and
when it is 0 on entry (`T`, `N` C ints) it ends at exactly the sum. -/
theorem C9_run_count_accumulates (n_threads : Nat) (input_chars : List Char) (out : Outputs)
    (hT : 1 ≤ n_threads) :
    (pzip n_threads input_chars input_chars.length out).totalZippedCharCount =
        wrapInt (out.totalZippedCharCount +
          (((localCountsOf n_threads input_chars input_chars.length).sum : Nat) : Int))
    ∧ writtenIndices n_threads input_chars input_chars.length =
        List.range (localCountsOf n_threads input_chars input_chars.length).sum
    ∧ (out.totalZippedCharCount = 0 → n_threads < 2147483648 →
        input_chars.length < 2147483648 →
        (pzip n_threads input_chars input_chars.length out).totalZippedCharCount =
          (((localCountsOf n_threads input_chars input_chars.length).sum : Nat) : Int)) := by
  refine ⟨?_, ?_, ?_⟩
  · rw [pzip_total n_threads input_chars _ out hT, sum_localCountsOf]
  · unfold writtenIndices
    rw [writtenIndices_eq, writeIdx_localCounts, sum_localCountsOf]
  · intro h0 hTint hN
    rw [pzip_total n_threads input_chars _ out hT, sum_localCountsOf, h0, zero_add]
    exact wrapInt_of_isInt (isInt_natCast (length_flatten_lt n_threads input_chars hT hTint hN))

/-- Instance of the amended C9: `"aaabbbccd"` with two workers, entered with
the run count 5, ends with the run count 9. -/
theorem C9_run_count_accumulates_witness :
    1 ≤ 2
    ∧ (pzip 2 ['a', 'a', 'a', 'b', 'b', 'b', 'c', 'c', 'd']
        ['a', 'a', 'a', 'b', 'b', 'b', 'c', 'c', 'd'].length
        ⟨fun _ => ⟨NUL, 0⟩, 5, fun _ => 0⟩).totalZippedCharCount =
      wrapInt ((5 : Int) +
        (((localCountsOf 2 ['a', 'a', 'a', 'b', 'b', 'b', 'c', 'c', 'd']
          ['a', 'a', 'a', 'b', 'b', 'b', 'c', 'c', 'd'].length).sum : Nat) : Int))
    ∧ (pzip 2 ['a', 'a', 'a', 'b', 'b', 'b', 'c', 'c', 'd'] 9
        ⟨fun _ => ⟨NUL, 0⟩, 5, fun _ => 0⟩).totalZippedCharCount = 9 :=
  ⟨by decide,
   (C9_run_count_accumulates 2 ['a', 'a', 'a', 'b', 'b', 'b', 'c', 'c', 'd']
     ⟨fun _ => ⟨NUL, 0⟩, 5, fun _ => 0⟩ (by decide)).1,
   by decide⟩

/-- Claim C10 (output capacity), evaluated on the code: with two workers on the
one-character input `"a"` (`N = 1`) the workers store two runs, to the cells 0
and 1, so a run list of capacity `N` is overrun. -/
theorem C10_capacity_overrun :
    ['a'].length = 1
    ∧ (localCountsOf 2 ['a'] 1).sum = 2
    ∧ writtenIndices 2 ['a'] 1 = [0, 1]
    ∧ writeRange (localCountsOf 2 ['a'] 1) 1 = [1]
    ∧ markedOutputs.zippedChars 1 = ⟨'q', 9⟩
    ∧ (zipCharsMerge (localCountsOf 2 ['a'] 1) 1 ((personalZips 2 ['a'] 1).getD 1 [])
        markedOutputs).zippedChars 1 = ⟨NUL, 0⟩
    ∧ ¬ ((localCountsOf 2 ['a'] 1).sum ≤ ['a'].length)
    ∧ ¬ (∀ k ∈ writtenIndices 2 ['a'] 1, k < ['a'].length) := by
  decide

/-! ## Independence of the merge order -/

theorem wrapInt_add_comm (c a b : Int) :
    wrapInt (wrapInt (c + a) + b) = wrapInt (wrapInt (c + b) + a) := by
  rw [wrapInt_wrapInt_add, wrapInt_wrapInt_add]
  congr 1
  ring

/-- Two iterations of the frequency loop can be swapped. -/
theorem freqUpdate_comm (f : Int → Int) (r1 r2 : zipped_char) :
    Function.update
        (Function.update f (freqIdx r1.character)
          (wrapInt (f (freqIdx r1.character) + (r1.occurence : Int))))
        (freqIdx r2.character)
        (wrapInt ((Function.update f (freqIdx r1.character)
          (wrapInt (f (freqIdx r1.character) + (r1.occurence : Int))))
            (freqIdx r2.character) + (r2.occurence : Int))) =
      Function.update
        (Function.update f (freqIdx r2.character)
          (wrapInt (f (freqIdx r2.character) + (r2.occurence : Int))))
        (freqIdx r1.character)
        (wrapInt ((Function.update f (freqIdx r2.character)
          (wrapInt (f (freqIdx r2.character) + (r2.occurence : Int))))
            (freqIdx r1.character) + (r1.occurence : Int))) := by
  by_cases h : freqIdx r1.character = freqIdx r2.character
  · rw [h]
    simp only [Function.update_same, Function.update_idem]
    rw [wrapInt_add_comm]
  · rw [Function.update_noteq (Ne.symm h), Function.update_noteq h]
    exact Function.update_comm h _ _ f

theorem addFrequency_append (a b : List zipped_char) (f : Int → Int) :
    addFrequency (a ++ b) f = addFrequency b (addFrequency a f) := by
  simp [addFrequency, List.foldl_append]

/-- The frequency merges of two workers can be swapped. -/
theorem addFrequency_comm (a b : List zipped_char) (f : Int → Int) :
    addFrequency a (addFrequency b f) = addFrequency b (addFrequency a f) := by
  rw [← addFrequency_append, ← addFrequency_append]
  unfold addFrequency
  exact List.Perm.foldl_eq' List.perm_append_comm
    (fun x _ y _ z => freqUpdate_comm z x y) f

/-- The writes of two workers can be swapped: their ranges do not meet. -/
theorem writeLoop_comm (lc : List Nat) (pa pb : List zipped_char) (i j : Nat)
    (z : Nat → zipped_char) :
    writeLoop pb (lc.getD j 0) (writeIdx lc j) 0
        (writeLoop pa (lc.getD i 0) (writeIdx lc i) 0 z) =
      writeLoop pa (lc.getD i 0) (writeIdx lc i) 0
        (writeLoop pb (lc.getD j 0) (writeIdx lc j) 0 z) ∨ i = j := by
  by_cases hij : i = j
  · exact Or.inr hij
  · left
    funext k
    simp only [writeLoop_apply]
    have hdis : ¬ (k ∈ writeRange lc i ∧ k ∈ writeRange lc j) := by
      rintro ⟨h1, h2⟩
      rcases Nat.lt_or_gt_of_ne hij with h | h
      · exact writeRange_disjoint lc i j h h1 h2
      · exact writeRange_disjoint lc j i h h2 h1
    simp only [writeRange, List.mem_range'_1] at hdis
    by_cases h1 : writeIdx lc i ≤ k ∧ k < writeIdx lc i + lc.getD i 0
    · have h2 : ¬ (writeIdx lc j ≤ k ∧ k < writeIdx lc j + lc.getD j 0) := fun h => hdis ⟨h1, h⟩
      simp only [if_pos h1, if_neg h2]
    · simp only [if_neg h1]

/-- Any two post-barrier updates can be swapped. -/
theorem applyStep_comm (lc : List Nat) (P : List (List zipped_char)) (x y : mergeStep)
    (out : Outputs) :
    applyStep lc P (applyStep lc P out x) y = applyStep lc P (applyStep lc P out y) x := by
  cases x with
  | countMerge i =>
    cases y with
    | countMerge j => simp only [applyStep, wrapInt_add_comm]
    | freqMerge j => rfl
    | outputWrite j => rfl
  | freqMerge i =>
    cases y with
    | countMerge j => rfl
    | freqMerge j => simp only [applyStep, addFrequency_comm]
    | outputWrite j => rfl
  | outputWrite i =>
    cases y with
    | countMerge j => rfl
    | freqMerge j => rfl
    | outputWrite j =>
      rcases writeLoop_comm lc (P.getD i []) (P.getD j []) i j out.zippedChars with h | h
      · simp only [applyStep, h]
      · subst h
        rfl

/-- The merge of one worker is its three updates in program order. -/
theorem zipCharsMerge_eq_steps (lc : List Nat) (P : List (List zipped_char)) (id : Nat)
    (out : Outputs) :
    zipCharsMerge lc id (P.getD id []) out = runSteps lc P (workerSteps id) out := rfl

theorem mergeIn_eq_runSteps (lc : List Nat) (P : List (List zipped_char)) (ids : List Nat) :
    ∀ out : Outputs, mergeIn lc P ids out = runSteps lc P (ids.flatMap workerSteps) out := by
  induction ids with
  | nil => intro out; rfl
  | cons i is ih =>
    intro out
    have h1 : mergeIn lc P (i :: is) out = mergeIn lc P is (zipCharsMerge lc i (P.getD i []) out) :=
      rfl
    rw [h1, ih, zipCharsMerge_eq_steps]
    simp [runSteps, List.foldl_append]

theorem runSteps_perm (lc : List Nat) (P : List (List zipped_char)) (s1 s2 : List mergeStep)
    (h : s1.Perm s2) (out : Outputs) : runSteps lc P s1 out = runSteps lc P s2 out :=
  List.Perm.foldl_eq' h (fun x _ y _ z => applyStep_comm lc P x y z) out

/-- Claim C11 (determinism): for every input, thread count and initial output
contents, the final run sequence, run count and frequency table do not depend
on the order in which the workers perform their post-barrier steps: the merge
phase run with the workers in any permutation `order` of `0 .. T`, and run
with the `3 T` individual updates (count merge, frequency merge, output write
of each worker) in any permutation `sched`, both end in the state `pzip`
reaches with the workers in ascending id. -/
theorem C11_determinism (n_threads : Nat) (input_chars : List Char) (out : Outputs)
    (order : List Nat) (sched : List mergeStep)
    (horder : order.Perm (List.range n_threads))
    (hsched : sched.Perm (allSteps n_threads)) :
    mergeIn (localCountsOf n_threads input_chars input_chars.length)
        (personalZips n_threads input_chars input_chars.length) order out =
      pzip n_threads input_chars input_chars.length out
    ∧ runSteps (localCountsOf n_threads input_chars input_chars.length)
        (personalZips n_threads input_chars input_chars.length) sched out =
      pzip n_threads input_chars input_chars.length out := by
  have hp : pzip n_threads input_chars input_chars.length out =
      runSteps (localCountsOf n_threads input_chars input_chars.length)
        (personalZips n_threads input_chars input_chars.length) (allSteps n_threads) out := by
    unfold pzip allSteps
    exact mergeIn_eq_runSteps _ _ _ out
  constructor
  · rw [hp, mergeIn_eq_runSteps]
    exact runSteps_perm _ _ _ _ (List.Perm.flatMap_right workerSteps horder) out
  · rw [hp]
    exact runSteps_perm _ _ _ _ hsched out

/-- Instance of C11: `"aaabbbccd"` with two workers, worker 1 merging first,
and an interleaving of the six updates that starts with the write of worker 1. -/
theorem C11_determinism_witness :
    (([1, 0] : List Nat).Perm (List.range 2)
      ∧ ([mergeStep.outputWrite 1, mergeStep.countMerge 0, mergeStep.freqMerge 1,
          mergeStep.outputWrite 0, mergeStep.countMerge 1, mergeStep.freqMerge 0]).Perm
          (allSteps 2))
    ∧ (mergeIn (localCountsOf 2 ['a', 'a', 'a', 'b', 'b', 'b', 'c', 'c', 'd']
          ['a', 'a', 'a', 'b', 'b', 'b', 'c', 'c', 'd'].length)
        (personalZips 2 ['a', 'a', 'a', 'b', 'b', 'b', 'c', 'c', 'd']
          ['a', 'a', 'a', 'b', 'b', 'b', 'c', 'c', 'd'].length) [1, 0] zeroOutputs =
      pzip 2 ['a', 'a', 'a', 'b', 'b', 'b', 'c', 'c', 'd']
        ['a', 'a', 'a', 'b', 'b', 'b', 'c', 'c', 'd'].length zeroOutputs
      ∧ runSteps (localCountsOf 2 ['a', 'a', 'a', 'b', 'b', 'b', 'c', 'c', 'd']
          ['a', 'a', 'a', 'b', 'b', 'b', 'c', 'c', 'd'].length)
        (personalZips 2 ['a', 'a', 'a', 'b', 'b', 'b', 'c', 'c', 'd']
          ['a', 'a', 'a', 'b', 'b', 'b', 'c', 'c', 'd'].length)
        [mergeStep.outputWrite 1, mergeStep.countMerge 0, mergeStep.freqMerge 1,
          mergeStep.outputWrite 0, mergeStep.countMerge 1, mergeStep.freqMerge 0]
        zeroOutputs =
      pzip 2 ['a', 'a', 'a', 'b', 'b', 'b', 'c', 'c', 'd']
        ['a', 'a', 'a', 'b', 'b', 'b', 'c', 'c', 'd'].length zeroOutputs) :=
  ⟨by decide,
   C11_determinism 2 ['a', 'a', 'a', 'b', 'b', 'b', 'c', 'c', 'd'] zeroOutputs [1, 0]
     [mergeStep.outputWrite 1, mergeStep.countMerge 0, mergeStep.freqMerge 1,
       mergeStep.outputWrite 0, mergeStep.countMerge 1, mergeStep.freqMerge 0]
     (by decide) (by decide)⟩

/-! ## The barrier -/

theorem countP_set (p : workerPc → Bool) (v a : workerPc) :
    ∀ (l : List workerPc) (i : Nat), l[i]? = some a →
      (l.set i v).countP p + (if p a then 1 else 0) = l.countP p + (if p v then 1 else 0) := by
  intro l
  induction l with
  | nil => intro i h; simp at h
  | cons x xs ih =>
    intro i h
    cases i with
    | zero =>
      simp at h
      subst h
      simp only [List.set_cons_zero, List.countP_cons]
      omega
    | succ i =>
      simp at h
      have := ih i h
      simp only [List.set_cons_succ, List.countP_cons]
      omega

theorem threadInv_init (T : Nat) : threadInv (initThreads T) := by
  refine ⟨by simp [initThreads], ?_, ?_, ?_⟩
  · simp [initThreads, List.countP_replicate, calledWait]
  · intro j _ hj
    simp only [initThreads, List.length_replicate] at hj
    simp [initThreads, List.getElem?_replicate, hj]
  · intro pc hpc hpast
    simp only [initThreads, List.mem_replicate] at hpc
    rw [hpc.2] at hpast
    simp [pastBarrier] at hpast

/-- A move of worker `id` from `a` to `v` that does not change whether it has
called the wait keeps the invariant, given the barrier is full if `v` is past
the barrier. -/
theorem threadInv_set (s : threadState) (id : Nat) (a v : workerPc) (k : Nat)
    (hinv : threadInv s) (ha : s.pcs[id]? = some a) (hne : a ≠ workerPc.notCreated)
    (hk : k + (if calledWait a then 1 else 0) = (if calledWait v then 1 else 0))
    (hv : pastBarrier v = true → s.barrierCount ≤ s.arrived + k) :
    threadInv ⟨s.pcs.set id v, s.created, s.arrived + k, s.barrierCount, false⟩ := by
  obtain ⟨h1, h2, h3, h4⟩ := hinv
  have hcnt := countP_set calledWait v a s.pcs id ha
  have hid : id < s.pcs.length := by
    by_contra hcon
    rw [List.getElem?_eq_none (by omega)] at ha
    simp at ha
  refine ⟨by simp [h1], ?_, ?_, ?_⟩
  · simp only
    omega
  · intro j hj hlen
    simp only [List.length_set] at hlen
    simp only
    have hji : id ≠ j := by
      intro e
      subst e
      rw [h3 id hj hlen] at ha
      exact hne (by simpa using ha.symm)
    rw [List.getElem?_set_ne hji]
    exact h3 j hj hlen
  · intro pc hpc hpast
    simp only at hpc ⊢
    rcases List.mem_or_eq_of_mem_set hpc with h | h
    · have := h4 pc h hpast
      omega
    · subst h
      exact hv hpast

theorem threadInv_step (s s1 : threadState) (e : threadEvent) (hinv : threadInv s)
    (hstep : stepThread s e = some s1) : threadInv s1 := by
  cases e with
  | create =>
    simp only [stepThread] at hstep
    split_ifs at hstep with hg
    simp only [Option.some.injEq] at hstep
    subst hstep
    obtain ⟨h1, h2, h3, h4⟩ := hinv
    have ha := h3 s.created (le_refl _) hg.2
    have hcnt := countP_set calledWait workerPc.encoding workerPc.notCreated s.pcs s.created ha
    simp only [calledWait] at hcnt
    refine ⟨by simp [h1], ?_, ?_, ?_⟩
    · simp only
      simp at hcnt
      omega
    · intro j hj hlen
      simp only [List.length_set] at hlen
      simp only at hj ⊢
      rw [List.getElem?_set_ne (by omega)]
      exact h3 j (by omega) hlen
    · intro pc hpc hpast
      simp only at hpc ⊢
      rcases List.mem_or_eq_of_mem_set hpc with h | h
      · exact h4 pc h hpast
      · subst h
        simp [pastBarrier] at hpast
  | createFails =>
    simp only [stepThread] at hstep
    split_ifs at hstep with hg
    simp only [Option.some.injEq] at hstep
    subst hstep
    exact hinv
  | publish id =>
    simp only [stepThread] at hstep
    split_ifs at hstep with hg
    simp only [Option.some.injEq] at hstep
    subst hstep
    exact threadInv_set s id workerPc.encoding workerPc.published 0 hinv hg.2 (by decide)
      (by decide) (by intro h; simp [pastBarrier] at h)
  | barrierWait id =>
    simp only [stepThread] at hstep
    split_ifs at hstep with hg
    simp only [Option.some.injEq] at hstep
    subst hstep
    exact threadInv_set s id workerPc.published workerPc.waiting 1 hinv hg.2 (by decide)
      (by decide) (by intro h; simp [pastBarrier] at h)
  | barrierPass id =>
    simp only [stepThread] at hstep
    split_ifs at hstep with hg
    simp only [Option.some.injEq] at hstep
    subst hstep
    exact threadInv_set s id workerPc.waiting workerPc.merging 0 hinv hg.2.1 (by decide)
      (by decide) (by intro _; simpa using hg.2.2)
  | finish id =>
    simp only [stepThread] at hstep
    split_ifs at hstep with hg
    simp only [Option.some.injEq] at hstep
    subst hstep
    have hmem : workerPc.merging ∈ s.pcs := List.getElem?_mem hg.2
    exact threadInv_set s id workerPc.merging workerPc.exited 0 hinv hg.2 (by decide)
      (by decide) (by intro _; simpa using hinv.2.2.2 _ hmem rfl)

theorem threadInv_run (es : List threadEvent) :
    ∀ s s1 : threadState, threadInv s → runThreads s es = some s1 → threadInv s1 := by
  induction es with
  | nil =>
    intro s s1 hinv h
    simp only [runThreads, Option.some.injEq] at h
    subst h
    exact hinv
  | cons e es ih =>
    intro s s1 hinv h
    simp only [runThreads] at h
    cases hs : stepThread s e with
    | none => rw [hs] at h; simp at h
    | some s2 =>
      rw [hs] at h
      exact ih s2 s1 (threadInv_step s s2 e hinv hs) h

theorem stepThread_barrierCount (s s1 : threadState) (e : threadEvent)
    (hstep : stepThread s e = some s1) : s1.barrierCount = s.barrierCount := by
  cases e <;>
  · simp only [stepThread] at hstep
    split_ifs at hstep
    simp only [Option.some.injEq] at hstep
    subst hstep
    rfl

theorem runThreads_barrierCount (es : List threadEvent) :
    ∀ s s1 : threadState, runThreads s es = some s1 → s1.barrierCount = s.barrierCount := by
  induction es with
  | nil =>
    intro s s1 h
    simp only [runThreads, Option.some.injEq] at h
    subst h
    rfl
  | cons e es ih =>
    intro s s1 h
    simp only [runThreads] at h
    cases hs : stepThread s e with
    | none => rw [hs] at h; simp at h
    | some s2 =>
      rw [hs] at h
      rw [ih s2 s1 h, stepThread_barrierCount s s2 e hs]

theorem hasPublished_of_calledWait (pc : workerPc) (h : calledWait pc = true) :
    hasPublished pc = true := by
  cases pc <;> simp_all [calledWait, hasPublished]

/-- Claim C12 (barrier contract): in every execution of `pzip` with `T` workers
(any sequence of enabled events from the start of the creation loop), whenever
some worker is executing or has executed post-barrier code, every one of the
`T` workers has finished its local encoding, stored its own slot of
`localCounts` and called `pthread_barrier_wait`. -/
theorem C12_barrier_contract (n_threads : Nat) (events : List threadEvent) (s : threadState)
    (hrun : runThreads (initThreads n_threads) events = some s)
    (i : Nat) (pc : workerPc) (hi : s.pcs[i]? = some pc) (hpast : pastBarrier pc = true) :
    ∀ j, j < n_threads →
      ∃ pcj, s.pcs[j]? = some pcj ∧ hasPublished pcj = true ∧ calledWait pcj = true := by
  obtain ⟨h1, h2, _, h4⟩ := threadInv_run events _ s (threadInv_init n_threads) hrun
  have hT : s.barrierCount = n_threads := runThreads_barrierCount events _ s hrun
  have hfull := h4 pc (List.getElem?_mem hi) hpast
  have hle : s.pcs.countP calledWait ≤ s.pcs.length := List.countP_le_length _
  have hall : ∀ a ∈ s.pcs, calledWait a = true :=
    (List.countP_eq_length (p := calledWait)).mp (by omega)
  intro j hj
  have hjlen : j < s.pcs.length := by omega
  refine ⟨s.pcs[j], List.getElem?_eq_getElem hjlen, ?_, ?_⟩
  · exact hasPublished_of_calledWait _ (hall _ (List.getElem_mem hjlen))
  · exact hall _ (List.getElem_mem hjlen)

/-- Instance of C12: two workers; worker 1 passes the barrier after both have
called the wait, and cannot pass it while worker 0 is still encoding. -/
theorem C12_barrier_contract_witness :
    (runThreads (initThreads 2)
        [threadEvent.create, threadEvent.create, threadEvent.publish 1,
         threadEvent.barrierWait 1, threadEvent.publish 0, threadEvent.barrierWait 0,
         threadEvent.barrierPass 1] =
        some ⟨[workerPc.waiting, workerPc.merging], 2, 2, 2, false⟩
      ∧ ([workerPc.waiting, workerPc.merging] : List workerPc)[1]? = some workerPc.merging
      ∧ pastBarrier workerPc.merging = true)
    ∧ (∀ j, j < 2 →
        ∃ pcj, ([workerPc.waiting, workerPc.merging] : List workerPc)[j]? = some pcj
          ∧ hasPublished pcj = true ∧ calledWait pcj = true)
    ∧ runThreads (initThreads 2)
        [threadEvent.create, threadEvent.create, threadEvent.publish 1,
         threadEvent.barrierWait 1, threadEvent.barrierPass 1] = none :=
  ⟨by decide,
   C12_barrier_contract 2
     [threadEvent.create, threadEvent.create, threadEvent.publish 1,
      threadEvent.barrierWait 1, threadEvent.publish 0, threadEvent.barrierWait 0,
      threadEvent.barrierPass 1]
     ⟨[workerPc.waiting, workerPc.merging], 2, 2, 2, false⟩ (by decide) 1 workerPc.merging
     (by decide) (by decide),
   by decide⟩

/-! ## Fatal failures -/

theorem createLoop_fatal (fl : failures) (hd : fl.dataStructsAlloc = false) :
    ∀ (n i : Nat) (o : outcome), createLoop fl n i = some o → o.isFatal = true := by
  intro n
  induction n with
  | zero => intro i o h; simp [createLoop] at h
  | succ n ih =>
    intro i o h
    simp only [createLoop, hd] at h
    by_cases hc : fl.createThread i = true
    · simp [hc] at h
      subst h
      rfl
    · simp [hc] at h
      exact ih _ _ h

theorem createLoop_some (fl : failures) (hd : fl.dataStructsAlloc = false) :
    ∀ (n i k : Nat), i ≤ k → k < i + n → fl.createThread k = true →
      ∃ o, createLoop fl n i = some o := by
  intro n
  induction n with
  | zero => intro i k h1 h2; omega
  | succ n ih =>
    intro i k h1 h2 hk
    simp only [createLoop, hd]
    by_cases hc : fl.createThread i = true
    · exact ⟨outcome.fatal (resource.thread i), by simp [hc]⟩
    · have hne : i ≠ k := fun e => hc (e ▸ hk)
      simp only [hc]
      exact ih (i + 1) k (by omega) (by omega) hk

theorem workersLoop_none (fl : failures) (hl : fl.localCountsAlloc = false)
    (hp : ∀ i, fl.personalZipAlloc i = false) :
    ∀ (n i : Nat), workersLoop fl n i = none := by
  intro n
  induction n with
  | zero => intro i; rfl
  | succ n ih =>
    intro i
    simp [workersLoop, workerOutcome, hl, hp, ih]

theorem joinLoop_fatal (fl : failures) :
    ∀ (n i : Nat) (o : outcome), joinLoop fl n i = some o → o.isFatal = true := by
  intro n
  induction n with
  | zero => intro i o h; simp [joinLoop] at h
  | succ n ih =>
    intro i o h
    simp only [joinLoop] at h
    by_cases hc : fl.joinThread i = true
    · simp [hc] at h
      subst h
      rfl
    · simp [hc] at h
      exact ih _ _ h

theorem joinLoop_some (fl : failures) :
    ∀ (n i k : Nat), i ≤ k → k < i + n → fl.joinThread k = true →
      ∃ o, joinLoop fl n i = some o := by
  intro n
  induction n with
  | zero => intro i k h1 h2; omega
  | succ n ih =>
    intro i k h1 h2 hk
    simp only [joinLoop]
    by_cases hc : fl.joinThread i = true
    · exact ⟨outcome.fatal (resource.threadJoin i), by simp [hc]⟩
    · have hne : i ≠ k := fun e => hc (e ▸ hk)
      simp only [hc]
      exact ih (i + 1) k (by omega) (by omega) hk

/-- The part of the claim the code keeps: when the three unchecked allocations
succeed, a failure of allocating `threads`, of initialising the barrier or a
lock, or of creating or joining one of the `T` threads ends in the fatal
path. -/
theorem pzipOutcome_checked (fl : failures) (T : Nat)
    (hl : fl.localCountsAlloc = false) (hd : fl.dataStructsAlloc = false)
    (hp : ∀ i, fl.personalZipAlloc i = false)
    (hfail : fl.threadsAlloc = true ∨ fl.barrierInit = true ∨ fl.zipCountLockInit = true
      ∨ fl.freqLockInit = true ∨ (∃ k, k < T ∧ fl.createThread k = true)
      ∨ (∃ k, k < T ∧ fl.joinThread k = true)) :
    (pzipOutcome fl T).isFatal = true := by
  unfold pzipOutcome
  by_cases h1 : fl.threadsAlloc = true
  · simp [h1, outcome.isFatal]
  by_cases h2 : fl.barrierInit = true
  · simp [h1, h2, outcome.isFatal]
  by_cases h3 : fl.zipCountLockInit = true
  · simp [h1, h2, h3, outcome.isFatal]
  by_cases h4 : fl.freqLockInit = true
  · simp [h1, h2, h3, h4, outcome.isFatal]
  simp only [h1, h2, h3, h4]
  cases hc : createLoop fl T 0 with
  | some o => exact createLoop_fatal fl hd T 0 o hc
  | none =>
    simp only [workersLoop_none fl hl hp]
    cases hj : joinLoop fl T 0 with
    | some o => exact joinLoop_fatal fl T 0 o hj
    | none =>
      exfalso
      rcases hfail with h | h | h | h | ⟨k, hk, hck⟩ | ⟨k, hk, hjk⟩
      · exact h1 h
      · exact h2 h
      · exact h3 h
      · exact h4 h
      · obtain ⟨o, ho⟩ := createLoop_some fl hd T 0 k (by omega) (by omega) hck
        rw [hc] at ho
        simp at ho
      · obtain ⟨o, ho⟩ := joinLoop_some fl T 0 k (by omega) (by omega) hjk
        rw [hj] at ho
        simp at ho

/-- Claim C13 (fatal failures), evaluated on the code: with one worker, a
failed allocation of the local-counts table, of the descriptor table or of the
worker's run buffer does not end in the fatal path: `pzip` goes on and stores
through the `NULL` pointer, while the failed allocation of `threads` next to
them, and the failed initialisations, creation and join, are fatal. -/
theorem C13_unchecked_allocations :
    pzipOutcome ⟨true, false, false, false, false, false,
        fun _ => false, fun _ => false, fun _ => false⟩ 1 =
      outcome.nullUse resource.localCounts
    ∧ pzipOutcome ⟨false, true, false, false, false, false,
        fun _ => false, fun _ => false, fun _ => false⟩ 1 =
      outcome.nullUse resource.dataStructs
    ∧ pzipOutcome ⟨false, false, false, false, false, false,
        fun _ => false, fun _ => false, fun _ => true⟩ 1 =
      outcome.nullUse (resource.personalZip 0)
    ∧ pzipOutcome ⟨false, false, true, false, false, false,
        fun _ => false, fun _ => false, fun _ => false⟩ 1 =
      outcome.fatal resource.threads
    ∧ pzipOutcome ⟨false, false, false, true, false, false,
        fun _ => false, fun _ => false, fun _ => false⟩ 1 =
      outcome.fatal resource.barrier
    ∧ pzipOutcome ⟨false, false, false, false, true, false,
        fun _ => false, fun _ => false, fun _ => false⟩ 1 =
      outcome.fatal resource.zipCountLock
    ∧ pzipOutcome ⟨false, false, false, false, false, true,
        fun _ => false, fun _ => false, fun _ => false⟩ 1 =
      outcome.fatal resource.freqLock
    ∧ pzipOutcome ⟨false, false, false, false, false, false,
        fun _ => true, fun _ => false, fun _ => false⟩ 1 =
      outcome.fatal (resource.thread 0)
    ∧ pzipOutcome ⟨false, false, false, false, false, false,
        fun _ => false, fun _ => true, fun _ => false⟩ 1 =
      outcome.fatal (resource.threadJoin 0)
    ∧ pzipOutcome noFailures 1 = outcome.returned := by
  decide

/-! ## The partitioner -/

theorem startIdx_eq (T N i : Nat) : (mkThreadData T N i).startIdx = i * (N / T) := by
  simp [mkThreadData, Nat.mul_comm]

theorem endIdx_eq (T N i : Nat) : (mkThreadData T N i).endIdx = i * (N / T) + N / T := by
  simp [mkThreadData, Nat.mul_comm]

theorem endIdx_le_startIdx (T N i j : Nat) (hij : i < j) :
    (mkThreadData T N i).endIdx ≤ (mkThreadData T N j).startIdx := by
  rw [endIdx_eq, startIdx_eq]
  calc i * (N / T) + N / T = (i + 1) * (N / T) := by ring
    _ ≤ j * (N / T) := Nat.mul_le_mul_right _ hij

/-- Claim C14 (partitioner): for every `N >= 0` and `T >= 1`, with
`blockSize = N / T`, worker `i` is assigned `startIdx = i*blockSize` and
`endIdx = i*blockSize + blockSize`; the `T` half-open ranges are pairwise
disjoint, contiguous in ascending worker order, cover exactly
`[0, T*blockSize)`, and every `endIdx` is `<= N`. -/
theorem C14_partitioner (n_threads N : Nat) (_hT : 1 ≤ n_threads) :
    (∀ i, i < n_threads →
      (dataStructs n_threads N)[i]? = some (mkThreadData n_threads N i))
    ∧ (∀ i, (mkThreadData n_threads N i).startIdx = i * (N / n_threads)
        ∧ (mkThreadData n_threads N i).endIdx = i * (N / n_threads) + N / n_threads)
    ∧ (∀ i j, i < n_threads → j < n_threads → i ≠ j → ∀ k,
        ¬ (((mkThreadData n_threads N i).startIdx ≤ k ∧ k < (mkThreadData n_threads N i).endIdx)
          ∧ ((mkThreadData n_threads N j).startIdx ≤ k
            ∧ k < (mkThreadData n_threads N j).endIdx)))
    ∧ (∀ i, (mkThreadData n_threads N i).endIdx = (mkThreadData n_threads N (i + 1)).startIdx)
    ∧ (∀ k, k < n_threads * (N / n_threads) ↔
        ∃ i, i < n_threads ∧ (mkThreadData n_threads N i).startIdx ≤ k
          ∧ k < (mkThreadData n_threads N i).endIdx)
    ∧ (∀ i, i < n_threads → (mkThreadData n_threads N i).endIdx ≤ N) := by
  refine ⟨?_, fun i => ⟨startIdx_eq _ _ i, endIdx_eq _ _ i⟩, ?_, ?_, ?_,
    fun i hi => endIdx_le _ _ i hi⟩
  · intro i hi
    simp [dataStructs, List.getElem?_map, List.getElem?_range hi]
  · intro i j _ _ hij k hk
    rcases Nat.lt_or_gt_of_ne hij with h | h
    · have := endIdx_le_startIdx n_threads N i j h
      omega
    · have := endIdx_le_startIdx n_threads N j i h
      omega
  · intro i
    rw [endIdx_eq, startIdx_eq]
    ring
  · intro k
    constructor
    · intro hk
      have hb : 0 < N / n_threads := by
        rcases Nat.eq_zero_or_pos (N / n_threads) with h | h
        · rw [h] at hk
          simp at hk
        · exact h
      refine ⟨k / (N / n_threads), ?_, ?_, ?_⟩
      · exact (Nat.div_lt_iff_lt_mul hb).mpr hk
      · rw [startIdx_eq]
        exact Nat.div_mul_le_self k _
      · rw [endIdx_eq]
        have := Nat.lt_div_mul_add hb (a := k)
        exact this
    · rintro ⟨i, hi, _, hk⟩
      rw [endIdx_eq] at hk
      calc k < i * (N / n_threads) + N / n_threads := hk
        _ = (i + 1) * (N / n_threads) := by ring
        _ ≤ n_threads * (N / n_threads) := Nat.mul_le_mul_right _ hi

/-- Instance of C14: nine characters and two workers give the ranges `[0, 4)`
and `[4, 8)`. -/
theorem C14_partitioner_witness :
    1 ≤ 2
    ∧ dataStructs 2 9 = [⟨4, 0, 0, 4⟩, ⟨4, 1, 4, 8⟩]
    ∧ (∀ i, i < 2 → (mkThreadData 2 9 i).endIdx ≤ 9) :=
  ⟨by decide, by decide, (C14_partitioner 2 9 (by decide)).2.2.2.2.2⟩

/-! ## The local encoder -/

theorem expand_cons (r : zipped_char) (rs : List zipped_char) :
    expand (r :: rs) = List.replicate r.occurence r.character ++ expand rs := by
  simp [expand]

theorem rle_eq_nil (s : List Char) (h : rle s = []) : s = [] := by
  cases s with
  | nil => rfl
  | cons c cs =>
    obtain ⟨k, rs, hk⟩ := rle_cons_head c cs
    rw [hk] at h
    simp at h

/-- Decoding the reference encoding gives back the list. -/
theorem expand_rle (s : List Char) : expand (rle s) = s := by
  induction s with
  | nil => rfl
  | cons c cs ih =>
    simp only [rle]
    cases h : rle cs with
    | nil =>
      rw [rle_eq_nil cs h]
      simp [expand]
    | cons r rs =>
      rw [h, expand_cons] at ih
      by_cases hr : r.character = c
      · simp only [hr, if_true, expand_cons, List.replicate_succ, List.cons_append]
        rw [← hr, ih]
      · simp only [hr, if_false, expand_cons, List.replicate_one, List.singleton_append]
        rw [ih]

/-- No two adjacent runs of the reference encoding have the same character. -/
theorem chain_rle (s : List Char) :
    List.Chain' (fun a b : zipped_char => a.character ≠ b.character) (rle s) := by
  induction s with
  | nil => simp [rle]
  | cons c cs ih =>
    simp only [rle]
    cases h : rle cs with
    | nil => simp
    | cons r rs =>
      rw [h] at ih
      by_cases hr : r.character = c
      · simp only [hr, if_true]
        cases rs with
        | nil => simp
        | cons q qs =>
          rw [List.chain'_cons] at ih ⊢
          exact ⟨by simpa [hr] using ih.1, ih.2⟩
      · simp only [hr, if_false]
        rw [List.chain'_cons]
        exact ⟨fun e => hr e.symm, ih⟩

/-- A run list with positive lengths and no two adjacent runs of the same
character is the reference encoding of its expansion. -/
theorem rle_expand (R : List zipped_char) (hpos : ∀ r ∈ R, 1 ≤ r.occurence)
    (hch : List.Chain' (fun a b : zipped_char => a.character ≠ b.character) R) :
    rle (expand R) = R := by
  induction R with
  | nil => rfl
  | cons r rs ih =>
    have hrs : rle (expand rs) = rs :=
      ih (fun x hx => hpos x (by simp [hx])) (List.Chain'.tail hch)
    obtain ⟨n, hn⟩ : ∃ n, r.occurence = n + 1 := ⟨r.occurence - 1, by
      have := hpos r (by simp)
      omega⟩
    have hhead : (expand rs).head? ≠ some r.character := by
      cases rs with
      | nil => simp [expand]
      | cons q qs =>
        obtain ⟨m, hm⟩ : ∃ m, q.occurence = m + 1 := ⟨q.occurence - 1, by
          have := hpos q (by simp)
          omega⟩
        rw [List.chain'_cons] at hch
        rw [expand_cons, hm, List.replicate_succ]
        simp only [List.cons_append, List.head?_cons, ne_eq, Option.some.injEq]
        exact fun e => hch.1 e.symm
    rw [expand_cons, hn, rle_replicate_append r.character (expand rs) hhead n, hrs, ← hn]

theorem isEncoding_rle (s : List Char) : isEncoding (rle s) s :=
  ⟨rle_pos s, chain_rle s, expand_rle s⟩

theorem isEncoding_unique (R : List zipped_char) (s : List Char) (h : isEncoding R s) :
    R = rle s := by
  obtain ⟨h1, h2, h3⟩ := h
  rw [← h3, rle_expand R h1 h2]

/-- Claim C15 (local encoder): for every non-empty slice of lowercase letters
the list of runs the scan in `zipChars` produces equals the reference
run-length encoding of the slice; it has the three properties (every run has
length `>= 1`, no two adjacent runs have the same character, the expansion is
the slice), it is the only list that has them, and a slice of length 1 yields
exactly one run of length 1. -/
theorem C15_local_encoder (inputChars : List Char) (data : threadData)
    (hlt : data.startIdx < data.endIdx) (hend : data.endIdx ≤ inputChars.length)
    (hlow : ∀ c ∈ sliceOf inputChars data.startIdx data.endIdx, isLower c) :
    zipCharsLocal inputChars data = rle (sliceOf inputChars data.startIdx data.endIdx)
    ∧ isEncoding (zipCharsLocal inputChars data)
        (sliceOf inputChars data.startIdx data.endIdx)
    ∧ (∀ R, isEncoding R (sliceOf inputChars data.startIdx data.endIdx) →
        R = zipCharsLocal inputChars data)
    ∧ (∀ c, sliceOf inputChars data.startIdx data.endIdx = [c] →
        zipCharsLocal inputChars data = [⟨c, 1⟩]) := by
  have hne : sliceOf inputChars data.startIdx data.endIdx ≠ [] := by
    intro h
    have hl : (sliceOf inputChars data.startIdx data.endIdx).length =
        data.endIdx - data.startIdx := by
      simp [sliceOf]
      omega
    rw [h] at hl
    simp at hl
    omega
  have heq : zipCharsLocal inputChars data =
      rle (sliceOf inputChars data.startIdx data.endIdx) := by
    unfold zipCharsLocal
    rw [scanLoop_eq_foldl _ _ _ (le_of_lt hlt) hend]
    exact scan_init_eq_rle _ hne (fun c hc => isLower_ne_NUL (hlow c hc))
  refine ⟨heq, ?_, ?_, ?_⟩
  · rw [heq]
    exact isEncoding_rle _
  · intro R hR
    rw [heq]
    exact isEncoding_unique R _ hR
  · intro c hc
    rw [heq, hc]
    rfl

/-- Instance of C15: the slice `"aaab"` of `"aaabbbccd"`. -/
theorem C15_local_encoder_witness :
    ((mkThreadData 2 9 0).startIdx < (mkThreadData 2 9 0).endIdx
      ∧ (mkThreadData 2 9 0).endIdx ≤ ['a', 'a', 'a', 'b', 'b', 'b', 'c', 'c', 'd'].length
      ∧ (∀ c ∈ sliceOf ['a', 'a', 'a', 'b', 'b', 'b', 'c', 'c', 'd']
          (mkThreadData 2 9 0).startIdx (mkThreadData 2 9 0).endIdx, isLower c))
    ∧ zipCharsLocal ['a', 'a', 'a', 'b', 'b', 'b', 'c', 'c', 'd'] (mkThreadData 2 9 0) =
        rle (sliceOf ['a', 'a', 'a', 'b', 'b', 'b', 'c', 'c', 'd']
          (mkThreadData 2 9 0).startIdx (mkThreadData 2 9 0).endIdx)
    ∧ zipCharsLocal ['a', 'a', 'a', 'b', 'b', 'b', 'c', 'c', 'd'] (mkThreadData 2 9 0) =
        [⟨'a', 3⟩, ⟨'b', 1⟩] :=
  ⟨by decide,
   (C15_local_encoder ['a', 'a', 'a', 'b', 'b', 'b', 'c', 'c', 'd'] (mkThreadData 2 9 0)
     (by decide) (by decide) (by decide)).1,
   by decide⟩

/-! ## The private buffer -/

theorem map_update_range (buf : Nat → zipped_char) (n : Nat) (v : zipped_char) :
    (List.range (n + 1)).map (Function.update buf n v) = (List.range n).map buf ++ [v] := by
  rw [List.range_succ, List.map_append]
  congr 1
  · apply List.map_congr_left
    intro k hk
    have hk2 : k < n := by simpa using hk
    exact Function.update_noteq (by omega) _ _
  · simp

theorem bufAgrees_step (b : bufState) (st : scanState) (c : Char) (h : bufAgrees b st) :
    bufAgrees (bufStep b c) (scanStep st c) := by
  obtain ⟨h1, h2, h3, h4, h5⟩ := h
  unfold bufStep scanStep
  rw [h2]
  split_ifs
  · exact ⟨by simp [h1], rfl, h3, h4, h5⟩
  · exact ⟨by simp [h1], rfl, h3, h4, h5⟩
  · refine ⟨rfl, rfl, by simp [h3], ?_, ?_⟩
    · simp only
      rw [map_update_range, h4, h1]
    · simp only
      rw [h5, List.range_succ]

theorem bufAgrees_foldl (inputChars : List Char) (l : List Nat) :
    ∀ (b : bufState) (st : scanState), bufAgrees b st →
      bufAgrees (l.foldl (fun st i => bufStep st (inputChars.getD i NUL)) b)
        (l.foldl (fun st i => scanStep st (inputChars.getD i NUL)) st) := by
  induction l with
  | nil => intro b st h; exact h
  | cons i is ih =>
    intro b st h
    exact ih _ _ (bufAgrees_step b st _ h)

/-- The cell-by-cell scan stores the private buffer of the list scan to the
cells `0 .. personalZipCount`, in that order. -/
theorem zipCharsBuf_eq (inputChars : List Char) (data : threadData)
    (cells : Nat → zipped_char) :
    (zipCharsBuf inputChars data cells).personalZipCount =
        (zipCharsLocal inputChars data).length
    ∧ (List.range (zipCharsBuf inputChars data cells).personalZipCount).map
        (zipCharsBuf inputChars data cells).personalZip = zipCharsLocal inputChars data
    ∧ (zipCharsBuf inputChars data cells).stores =
        List.range (zipCharsBuf inputChars data cells).personalZipCount := by
  have h0 : bufAgrees (bufInit cells) scanInit := ⟨rfl, rfl, rfl, rfl, rfl⟩
  obtain ⟨h1, h2, h3, h4, h5⟩ := bufAgrees_foldl inputChars
    (List.range' data.startIdx (data.endIdx - data.startIdx)) _ _ h0
  unfold zipCharsBuf zipCharsLocal scanLoop bufLast emitLast
  refine ⟨?_, ?_, ?_⟩
  · simp only
    rw [List.length_append, h3]
    rfl
  · simp only
    rw [map_update_range, h4, h1, h2]
  · simp only
    rw [h5, List.range_succ]

/-- Claim C16 (local buffer bound): for every worker slice of length `L >= 1`
(`personalZip` allocated with `size = L` entries, as `pzip` sets it), the
number of runs the worker emits is at most `L`, and every index of
`personalZip` the worker stores to is in `[0, L)`. -/
theorem C16_local_buffer_bound (inputChars : List Char) (data : threadData)
    (cells : Nat → zipped_char)
    (hsize : data.size = data.endIdx - data.startIdx) (hL : 1 ≤ data.size)
    (hend : data.endIdx ≤ inputChars.length) :
    (zipCharsLocal inputChars data).length ≤ data.size
    ∧ (zipCharsBuf inputChars data cells).personalZipCount ≤ data.size
    ∧ (∀ k ∈ (zipCharsBuf inputChars data cells).stores, k < data.size) := by
  have hlen : (zipCharsLocal inputChars data).length ≤ data.size := by
    rw [hsize]
    exact length_zipCharsLocal_le inputChars data (by omega) hend
  obtain ⟨h1, _, h3⟩ := zipCharsBuf_eq inputChars data cells
  refine ⟨hlen, by omega, ?_⟩
  intro k hk
  rw [h3] at hk
  have := List.mem_range.mp hk
  omega

/-- Instance of C16: worker 1 of two on `"aaabbbccd"` (slice `"bbcc"`, four
entries) stores to the cells 0 and 1. -/
theorem C16_local_buffer_bound_witness :
    ((mkThreadData 2 9 1).size = (mkThreadData 2 9 1).endIdx - (mkThreadData 2 9 1).startIdx
      ∧ 1 ≤ (mkThreadData 2 9 1).size
      ∧ (mkThreadData 2 9 1).endIdx ≤ ['a', 'a', 'a', 'b', 'b', 'b', 'c', 'c', 'd'].length)
    ∧ (∀ k ∈ (zipCharsBuf ['a', 'a', 'a', 'b', 'b', 'b', 'c', 'c', 'd'] (mkThreadData 2 9 1)
        (fun _ => ⟨NUL, 0⟩)).stores, k < (mkThreadData 2 9 1).size)
    ∧ (zipCharsBuf ['a', 'a', 'a', 'b', 'b', 'b', 'c', 'c', 'd'] (mkThreadData 2 9 1)
        (fun _ => ⟨NUL, 0⟩)).stores = [0, 1]
    ∧ (mkThreadData 2 9 1).size = 4 :=
  ⟨by decide,
   (C16_local_buffer_bound ['a', 'a', 'a', 'b', 'b', 'b', 'c', 'c', 'd'] (mkThreadData 2 9 1)
     (fun _ => ⟨NUL, 0⟩) (by decide) (by decide) (by decide)).2.2,
   by decide, by decide⟩

/-! ## Bounds of the frequency indices -/

/-- The frequency loop leaves every cell alone that is not among its indices. -/
theorem addFrequency_frame (pz : List zipped_char) :
    ∀ (f : Int → Int) (k : Int), k ∉ freqIndices pz → addFrequency pz f k = f k := by
  induction pz with
  | nil => intro f k _; rfl
  | cons r rs ih =>
    intro f k hk
    simp only [freqIndices, List.map_cons, List.mem_cons, not_or] at hk
    have hunf : addFrequency (r :: rs) f =
        addFrequency rs (Function.update f (freqIdx r.character)
          (wrapInt (f (freqIdx r.character) + (r.occurence : Int)))) := rfl
    rw [hunf, ih _ k hk.2, Function.update_noteq hk.1]

theorem character_mem_expand (R : List zipped_char) (r : zipped_char) (hr : r ∈ R)
    (hpos : 1 ≤ r.occurence) : r.character ∈ expand R := by
  unfold expand
  rw [List.mem_flatMap]
  refine ⟨r, hr, ?_⟩
  rw [List.mem_replicate]
  exact ⟨by omega, rfl⟩

/-- The characters of the reference encoding are characters of the list. -/
theorem character_mem_rle (s : List Char) (r : zipped_char) (hr : r ∈ rle s) :
    r.character ∈ s := by
  have h := character_mem_expand (rle s) r hr (rle_pos s r hr)
  rwa [expand_rle] at h

/-- Claim C17 (frequency index bounds): for every `T >= 1` and input of
`N >= T` characters all in `a..z`, every index `character - 'a'` a worker uses
to update the frequency table during the merge is in `[0, 26)`; the frequency
loop updates no other cell. -/
theorem C17_frequency_index_bounds (n_threads : Nat) (input_chars : List Char)
    (hT : 1 ≤ n_threads) (hTN : n_threads ≤ input_chars.length)
    (hlow : ∀ c ∈ input_chars, isLower c) :
    (∀ i, i < n_threads →
      ∀ k ∈ freqIndices ((personalZips n_threads input_chars input_chars.length).getD i []),
        0 ≤ k ∧ k < 26)
    ∧ (∀ (pz : List zipped_char) (f : Int → Int) (k : Int),
        k ∉ freqIndices pz → addFrequency pz f k = f k) := by
  refine ⟨?_, fun pz f k hk => addFrequency_frame pz f k hk⟩
  intro i hi k hk
  rw [getD_personalZips _ _ _ _ hi, zipCharsLocal_eq_rle _ _ _ hT hTN hi hlow] at hk
  simp only [freqIndices, List.mem_map] at hk
  obtain ⟨r, hr, rfl⟩ := hk
  have hmem := mem_workerSlice n_threads input_chars i _
    (character_mem_rle _ r hr)
  obtain ⟨j, hj, hidx⟩ := freqIdx_of_isLower (hlow _ hmem)
  omega

/-- Instance of C17: `"aaabbbccd"` with two workers; worker 1 updates the
slots 1 and 2. -/
theorem C17_frequency_index_bounds_witness :
    (1 ≤ 2 ∧ 2 ≤ ['a', 'a', 'a', 'b', 'b', 'b', 'c', 'c', 'd'].length
      ∧ (∀ c ∈ ['a', 'a', 'a', 'b', 'b', 'b', 'c', 'c', 'd'], isLower c))
    ∧ (∀ i, i < 2 →
      ∀ k ∈ freqIndices ((personalZips 2 ['a', 'a', 'a', 'b', 'b', 'b', 'c', 'c', 'd']
          ['a', 'a', 'a', 'b', 'b', 'b', 'c', 'c', 'd'].length).getD i []),
        0 ≤ k ∧ k < 26)
    ∧ freqIndices ((personalZips 2 ['a', 'a', 'a', 'b', 'b', 'b', 'c', 'c', 'd'] 9).getD 1 [])
        = [1, 2] :=
  ⟨by decide,
   (C17_frequency_index_bounds 2 ['a', 'a', 'a', 'b', 'b', 'b', 'c', 'c', 'd']
     (by decide) (by decide) (by decide)).1,
   by decide⟩

/-! ## Accumulation into the caller's cells -/

/-- Claim C18 as stated fails for initial values at the top of the `int`
range: entered with the run count `INT_MAX`, `pzip` on `"a"` with one worker
leaves `INT_MIN`, not `INT_MAX + 1`; the same for a frequency slot. -/
theorem C18_counterexample :
    (pzip 1 ['a'] 1 ⟨fun _ => ⟨NUL, 0⟩, 2147483647, fun _ => 0⟩).totalZippedCharCount =
      -2147483648
    ∧ (localCountsOf 1 ['a'] 1).sum = 1
    ∧ (pzip 1 ['a'] 1 ⟨fun _ => ⟨NUL, 0⟩, 2147483647, fun _ => 0⟩).totalZippedCharCount ≠
      2147483647 + (((localCountsOf 1 ['a'] 1).sum : Nat) : Int)
    ∧ (pzip 1 ['a'] 1 ⟨fun _ => ⟨NUL, 0⟩, 0, fun _ => 2147483647⟩).charFrequency
        (freqIdx 'a') = -2147483648
    ∧ (pzip 1 ['a'] 1 ⟨fun _ => ⟨NUL, 0⟩, 0, fun _ => 2147483647⟩).charFrequency
        (freqIdx 'a') ≠ 2147483647 + ((['a'].take (1 * (1 / 1))).count 'a' : Int) := by
  decide

/-- Claim C18, amended: `pzip` adds to the caller's scalar outputs rather than
overwriting them: for every input of lowercase letters with `N >= T >= 1` and
initial values `c0` of the run count and `f0` of the frequency table that are
`int`s, as long as the sums below are representable as `int`, the final run
count is `c0 +` (number of runs written) and the final frequency slot of each
letter is `f0[slot] +` (occurrences of the letter in the processed prefix);
the cells written are `outputRuns[0 .. number of runs written)` and hold the
same runs as from zeroed outputs, independent of `c0`. -/
theorem C18_accumulating_outputs (n_threads : Nat) (input_chars : List Char) (out : Outputs)
    (hT : 1 ≤ n_threads) (_hTN : n_threads ≤ input_chars.length)
    (hlow : ∀ c ∈ input_chars, isLower c)
    (hcount : isInt (out.totalZippedCharCount +
      (((localCountsOf n_threads input_chars input_chars.length).sum : Nat) : Int)))
    (c : Char) (_hc : isLower c)
    (hf0 : isInt (out.charFrequency (freqIdx c)))
    (hfsum : isInt (out.charFrequency (freqIdx c) +
      ((input_chars.take (n_threads * (input_chars.length / n_threads))).count c : Int))) :
    (pzip n_threads input_chars input_chars.length out).totalZippedCharCount =
        out.totalZippedCharCount +
          (((localCountsOf n_threads input_chars input_chars.length).sum : Nat) : Int)
    ∧ (pzip n_threads input_chars input_chars.length out).charFrequency (freqIdx c) =
        out.charFrequency (freqIdx c) +
          ((input_chars.take (n_threads * (input_chars.length / n_threads))).count c : Int)
    ∧ writtenIndices n_threads input_chars input_chars.length =
        List.range (localCountsOf n_threads input_chars input_chars.length).sum
    ∧ emittedRuns n_threads input_chars input_chars.length
          (pzip n_threads input_chars input_chars.length out) =
        emittedRuns n_threads input_chars input_chars.length
          (pzip n_threads input_chars input_chars.length zeroOutputs) := by
  refine ⟨?_, ?_, ?_, ?_⟩
  · rw [pzip_total n_threads input_chars _ out hT, ← sum_localCountsOf]
    exact wrapInt_of_isInt hcount
  · rw [pzip_freq n_threads input_chars _ out (freqIdx c) hf0, runSum_eq_lengthOf,
      lengthOf_eq_count, expand_personalZips n_threads input_chars hlow]
    exact wrapInt_of_isInt hfsum
  · unfold writtenIndices
    rw [writtenIndices_eq, writeIdx_localCounts, sum_localCountsOf]
  · rw [pzip_emittedRuns, pzip_emittedRuns]

/-- Instance of the amended C18: `"aaabbbccd"` with two workers, entered with
the run count 5 and every frequency slot 7: the count ends at 9 and the slot
of `b` at 10. -/
theorem C18_accumulating_outputs_witness :
    (1 ≤ 2 ∧ 2 ≤ ['a', 'a', 'a', 'b', 'b', 'b', 'c', 'c', 'd'].length
      ∧ (∀ c ∈ ['a', 'a', 'a', 'b', 'b', 'b', 'c', 'c', 'd'], isLower c)
      ∧ isInt ((5 : Int) +
          (((localCountsOf 2 ['a', 'a', 'a', 'b', 'b', 'b', 'c', 'c', 'd']
            ['a', 'a', 'a', 'b', 'b', 'b', 'c', 'c', 'd'].length).sum : Nat) : Int))
      ∧ isLower 'b' ∧ isInt (7 : Int)
      ∧ isInt ((7 : Int) + ((['a', 'a', 'a', 'b', 'b', 'b', 'c', 'c', 'd'].take
          (2 * (['a', 'a', 'a', 'b', 'b', 'b', 'c', 'c', 'd'].length / 2))).count 'b' : Int)))
    ∧ (pzip 2 ['a', 'a', 'a', 'b', 'b', 'b', 'c', 'c', 'd']
        ['a', 'a', 'a', 'b', 'b', 'b', 'c', 'c', 'd'].length
        ⟨fun _ => ⟨NUL, 0⟩, 5, fun _ => 7⟩).totalZippedCharCount =
      (5 : Int) + (((localCountsOf 2 ['a', 'a', 'a', 'b', 'b', 'b', 'c', 'c', 'd']
        ['a', 'a', 'a', 'b', 'b', 'b', 'c', 'c', 'd'].length).sum : Nat) : Int)
    ∧ (pzip 2 ['a', 'a', 'a', 'b', 'b', 'b', 'c', 'c', 'd'] 9
        ⟨fun _ => ⟨NUL, 0⟩, 5, fun _ => 7⟩).totalZippedCharCount = 9
    ∧ (pzip 2 ['a', 'a', 'a', 'b', 'b', 'b', 'c', 'c', 'd'] 9
        ⟨fun _ => ⟨NUL, 0⟩, 5, fun _ => 7⟩).charFrequency (freqIdx 'b') = 10 :=
  ⟨by decide,
   (C18_accumulating_outputs 2 ['a', 'a', 'a', 'b', 'b', 'b', 'c', 'c', 'd']
     ⟨fun _ => ⟨NUL, 0⟩, 5, fun _ => 7⟩ (by decide) (by decide) (by decide) (by decide)
     'b' (by decide) (by decide) (by decide)).1,
   by decide, by decide⟩

/-! ## Many workers against one -/

theorem rle_cons_joinRun (c : Char) (cs : List Char) :
    rle (c :: cs) = joinRun c 1 (rle cs) := by
  simp only [rle]
  cases rle cs with
  | nil => rfl
  | cons r rs =>
    simp only [joinRun]
    split_ifs
    · rw [Nat.add_comm]
    · rfl

theorem joinRun_joinRun (c : Char) (k : Nat) (L : List zipped_char) :
    joinRun c 1 (joinRun c k L) = joinRun c (k + 1) L := by
  cases L with
  | nil => simp [joinRun, Nat.add_comm]
  | cons q qs =>
    simp only [joinRun]
    split_ifs with h
    · simp only [joinRun, if_true]
      congr 2
      omega
    · simp only [joinRun, if_true]
      simp [Nat.add_comm, h]

theorem rle_replicate_joinRun (c : Char) (rest : List Char) :
    ∀ n : Nat, rle (List.replicate (n + 1) c ++ rest) = joinRun c (n + 1) (rle rest) := by
  intro n
  induction n with
  | zero => simp [rle_cons_joinRun]
  | succ n ih =>
    rw [List.replicate_succ, List.cons_append, rle_cons_joinRun, ih, joinRun_joinRun]

/-- Coalescing a run list with positive lengths gives the reference encoding
of its expansion. -/
theorem coalesce_eq_rle (R : List zipped_char) (hpos : ∀ r ∈ R, 1 ≤ r.occurence) :
    coalesce R = rle (expand R) := by
  induction R with
  | nil => rfl
  | cons r rs ih =>
    obtain ⟨n, hn⟩ : ∃ n, r.occurence = n + 1 := ⟨r.occurence - 1, by
      have := hpos r (by simp)
      omega⟩
    rw [coalesce, ih (fun x hx => hpos x (by simp [hx])), expand_cons, hn,
      rle_replicate_joinRun]

theorem length_processed (T : Nat) (input : List Char) :
    (processed T input).length = T * (input.length / T) := by
  unfold processed
  rw [List.length_take]
  exact Nat.min_eq_left (Nat.mul_div_le _ _)

theorem one_le_length_processed (T : Nat) (input : List Char) (hT : 1 ≤ T)
    (hTN : T ≤ input.length) : 1 ≤ (processed T input).length := by
  rw [length_processed]
  have hb : 1 ≤ input.length / T := (Nat.one_le_div_iff (by omega)).mpr hTN
  exact Nat.mul_pos (by omega) hb

/-- With one worker on a non-empty input of lowercase letters the private
buffer is the reference encoding of the whole input. -/
theorem personalZips_one (p : List Char) (hp : 1 ≤ p.length) (hlow : ∀ c ∈ p, isLower c) :
    (personalZips 1 p p.length).flatten = rle p := by
  have h1 := personalZips_eq_rle 1 p (le_refl 1) hp hlow
  have h2 := expand_personalZips 1 p hlow
  have hr : List.range 1 = [0] := rfl
  rw [h1] at h2 ⊢
  simp only [hr, List.map_cons, List.map_nil, List.flatten_cons, List.flatten_nil,
    List.append_nil] at h2 ⊢
  rw [expand_rle] at h2
  rw [h2]
  simp

/-- With no empty slice every run the workers store has a positive length. -/
theorem personalZips_pos (T : Nat) (input : List Char) (hT : 1 ≤ T) (hTN : T ≤ input.length)
    (hlow : ∀ c ∈ input, isLower c) :
    ∀ r ∈ (personalZips T input input.length).flatten, 1 ≤ r.occurence := by
  intro r hr
  rw [personalZips_eq_rle T input hT hTN hlow, List.mem_flatten] at hr
  obtain ⟨l, hl, hrl⟩ := hr
  rw [List.mem_map] at hl
  obtain ⟨i, _, rfl⟩ := hl
  exact rle_pos _ r hrl

/-- The runs of `T` workers, coalesced, are the reference encoding of the
processed prefix. -/
theorem coalesce_personalZips (T : Nat) (input : List Char) (hT : 1 ≤ T)
    (hTN : T ≤ input.length) (hlow : ∀ c ∈ input, isLower c) :
    coalesce (personalZips T input input.length).flatten = rle (processed T input) := by
  rw [coalesce_eq_rle _ (personalZips_pos T input hT hTN hlow),
    expand_personalZips T input hlow]
  rfl

/-- Claim C19 (many workers against one): for every `T >= 1` and input of `N`
lowercase letters with `N >= T` (`N` a C int), coalescing adjacent runs with
equal characters in the `T`-thread output, summing their lengths, yields
exactly the run list `pzip` with `threadCount = 1` produces on the processed
prefix `input[0 .. T*(N/T))`; likewise for the run lists read through run
counts that are 0 on entry. -/
theorem C19_coalesce_single_thread (n_threads : Nat) (input_chars : List Char)
    (out out1 : Outputs)
    (hT : 1 ≤ n_threads) (hTN : n_threads ≤ input_chars.length)
    (hN : input_chars.length < 2147483648)
    (hlow : ∀ c ∈ input_chars, isLower c) :
    coalesce (emittedRuns n_threads input_chars input_chars.length
        (pzip n_threads input_chars input_chars.length out)) =
      emittedRuns 1 (processed n_threads input_chars)
        (processed n_threads input_chars).length
        (pzip 1 (processed n_threads input_chars)
          (processed n_threads input_chars).length out1)
    ∧ (out.totalZippedCharCount = 0 → out1.totalZippedCharCount = 0 →
        coalesce (outputRuns (pzip n_threads input_chars input_chars.length out)) =
          outputRuns (pzip 1 (processed n_threads input_chars)
            (processed n_threads input_chars).length out1)) := by
  have hlowp : ∀ c ∈ processed n_threads input_chars, isLower c :=
    fun c hc => hlow c (List.mem_of_mem_take hc)
  have hone := personalZips_one (processed n_threads input_chars)
    (one_le_length_processed n_threads input_chars hT hTN) hlowp
  have hmany := coalesce_personalZips n_threads input_chars hT hTN hlow
  constructor
  · rw [pzip_emittedRuns, pzip_emittedRuns, hmany, hone]
  · intro h0 h1
    have hplen : (processed n_threads input_chars).length < 2147483648 := by
      rw [length_processed]
      exact lt_of_le_of_lt (Nat.mul_div_le _ _) hN
    rw [pzip_outputRuns n_threads input_chars out hT (by omega) hN h0,
      pzip_outputRuns 1 (processed n_threads input_chars) out1 (le_refl 1) (by decide)
        hplen h1,
      hmany, hone]

/-- Instance of C19: `"aaabbbccd"` with two workers: `[(a,3),(b,1),(b,2),(c,2)]`
coalesces to `[(a,3),(b,3),(c,2)]`, the one-worker output on `"aaabbbcc"`. -/
theorem C19_coalesce_single_thread_witness :
    (1 ≤ 2 ∧ 2 ≤ ['a', 'a', 'a', 'b', 'b', 'b', 'c', 'c', 'd'].length
      ∧ ['a', 'a', 'a', 'b', 'b', 'b', 'c', 'c', 'd'].length < 2147483648
      ∧ (∀ c ∈ ['a', 'a', 'a', 'b', 'b', 'b', 'c', 'c', 'd'], isLower c))
    ∧ coalesce (emittedRuns 2 ['a', 'a', 'a', 'b', 'b', 'b', 'c', 'c', 'd']
        ['a', 'a', 'a', 'b', 'b', 'b', 'c', 'c', 'd'].length
        (pzip 2 ['a', 'a', 'a', 'b', 'b', 'b', 'c', 'c', 'd']
          ['a', 'a', 'a', 'b', 'b', 'b', 'c', 'c', 'd'].length zeroOutputs)) =
      emittedRuns 1 (processed 2 ['a', 'a', 'a', 'b', 'b', 'b', 'c', 'c', 'd'])
        (processed 2 ['a', 'a', 'a', 'b', 'b', 'b', 'c', 'c', 'd']).length
        (pzip 1 (processed 2 ['a', 'a', 'a', 'b', 'b', 'b', 'c', 'c', 'd'])
          (processed 2 ['a', 'a', 'a', 'b', 'b', 'b', 'c', 'c', 'd']).length zeroOutputs)
    ∧ coalesce (outputRuns (pzip 2 ['a', 'a', 'a', 'b', 'b', 'b', 'c', 'c', 'd'] 9
        zeroOutputs)) = [⟨'a', 3⟩, ⟨'b', 3⟩, ⟨'c', 2⟩] :=
  ⟨by decide,
   (C19_coalesce_single_thread 2 ['a', 'a', 'a', 'b', 'b', 'b', 'c', 'c', 'd']
     zeroOutputs zeroOutputs (by decide) (by decide) (by decide) (by decide)).1,
   by decide⟩

/-! ## The number of runs -/

/-- The reference encoding of a non-empty list has one run more than the list
has breaks. -/
theorem length_rle (s : List Char) (hs : s ≠ []) : (rle s).length = breaks s + 1 := by
  induction s with
  | nil => exact absurd rfl hs
  | cons a t ih =>
    cases t with
    | nil => simp [rle, breaks]
    | cons b rest =>
      have h := ih (by simp)
      obtain ⟨k, rs, hk⟩ := rle_cons_head b rest
      rw [rle_cons_joinRun, hk]
      rw [hk] at h
      simp only [joinRun, breaks]
      by_cases hab : a = b
      · subst hab
        simp only [if_true]
        simp only [List.length_cons] at h ⊢
        omega
      · have hba : ¬ b = a := fun e => hab e.symm
        simp only [hba, hab, if_false]
        simp only [List.length_cons] at h ⊢
        omega

theorem breaks_append (a b : List Char) (ha : a ≠ []) (hb : b ≠ []) :
    breaks (a ++ b) = breaks a + breaks b + (if a.getLast? = b.head? then 0 else 1) := by
  induction a with
  | nil => exact absurd rfl ha
  | cons x t ih =>
    cases t with
    | nil =>
      cases b with
      | nil => exact absurd rfl hb
      | cons y ys =>
        simp only [List.singleton_append, breaks, List.getLast?_singleton, List.head?_cons,
          Option.some.injEq]
        omega
    | cons z t1 =>
      have h := ih (by simp)
      simp only [List.cons_append] at h ⊢
      simp only [breaks, List.getLast?_cons_cons]
      rw [h]
      omega

theorem getLast?_take (l : List Char) (n : Nat) (hn : 1 ≤ n) (hle : n ≤ l.length) :
    (l.take n).getLast? = l[n - 1]? := by
  rw [List.getLast?_eq_getElem?, List.length_take, Nat.min_eq_left hle,
    List.getElem?_take_of_lt (by omega)]

theorem head?_sliceOf (l : List Char) (s b : Nat) (hb : 1 ≤ b) :
    (sliceOf l s (s + b)).head? = l[s]? := by
  unfold sliceOf
  rw [List.head?_eq_getElem?, List.getElem?_take_of_lt (by omega), List.getElem?_drop]
  simp

theorem sliceOf_ne_nil (l : List Char) (s b : Nat) (hb : 1 ≤ b) (hle : s + b ≤ l.length) :
    sliceOf l s (s + b) ≠ [] := by
  intro h
  have hl : (sliceOf l s (s + b)).length = b := by
    simp [sliceOf]
    omega
  rw [h] at hl
  simp at hl
  omega

theorem take_succ_block (l : List Char) (b k : Nat) :
    l.take ((k + 1) * b) = l.take (k * b) ++ sliceOf l (b * k) (b * k + b) := by
  have h : (k + 1) * b = k * b + b := by ring
  rw [h, List.take_add]
  simp [sliceOf, Nat.mul_comm]

/-- The runs of the slices `0 .. k + 1` of block size `b`, counted slice by
slice, exceed the runs of the whole prefix by the number of boundaries with
equal characters on both sides. -/
theorem sum_length_rle (l : List Char) (b : Nat) (hb : 1 ≤ b) :
    ∀ k : Nat, (k + 1) * b ≤ l.length →
      ((List.range (k + 1)).map (fun i => (rle (sliceOf l (b * i) (b * i + b))).length)).sum =
        (rle (l.take ((k + 1) * b))).length +
          (List.range k).countP (fun i => decide (l[(i + 1) * b - 1]? = l[(i + 1) * b]?)) := by
  intro k
  induction k with
  | zero =>
    intro _
    have hr : List.range 1 = [0] := rfl
    simp [hr, sliceOf]
  | succ k ih =>
    intro hk
    have hk1 : (k + 1) * b ≤ l.length := by
      have : (k + 1) * b ≤ (k + 1 + 1) * b := Nat.mul_le_mul_right _ (by omega)
      omega
    have hpos : 1 ≤ (k + 1) * b := Nat.mul_pos (by omega) hb
    have hslice : b * (k + 1) + b ≤ l.length := by
      have : b * (k + 1) + b = (k + 1 + 1) * b := by ring
      omega
    have hne1 : l.take ((k + 1) * b) ≠ [] := by
      intro h
      have hl := congrArg List.length h
      rw [List.length_take, Nat.min_eq_left hk1] at hl
      simp at hl
      omega
    have hne2 := sliceOf_ne_nil l (b * (k + 1)) b hb hslice
    have hne3 : l.take ((k + 1 + 1) * b) ≠ [] := by
      rw [take_succ_block]
      simp [hne1]
    rw [List.range_succ (n := k + 1), List.map_append, List.sum_append, ih hk1,
      List.range_succ (n := k), List.countP_append]
    simp only [List.map_cons, List.map_nil, List.sum_cons, List.sum_nil, List.countP_cons,
      List.countP_nil, Nat.add_zero, Nat.zero_add]
    rw [length_rle _ hne1, length_rle _ hne2, length_rle _ hne3, take_succ_block l b (k + 1),
      breaks_append _ _ hne1 hne2, getLast?_take l _ hpos hk1, head?_sliceOf l _ b hb]
    have hmul : b * (k + 1) = (k + 1) * b := Nat.mul_comm _ _
    simp only [decide_eq_true_eq, hmul]
    split_ifs <;> omega

/-- The number of runs `T` workers write, with no empty slice. -/
theorem sum_localCountsOf_many (T : Nat) (input : List Char) (hT : 1 ≤ T)
    (hTN : T ≤ input.length) (hlow : ∀ c ∈ input, isLower c) :
    (localCountsOf T input input.length).sum =
      (rle (processed T input)).length + equalBoundaries T input := by
  obtain ⟨k, rfl⟩ : ∃ k, T = k + 1 := ⟨T - 1, by omega⟩
  have hb : 1 ≤ input.length / (k + 1) := (Nat.one_le_div_iff (by omega)).mpr hTN
  have hle : (k + 1) * (input.length / (k + 1)) ≤ input.length := Nat.mul_div_le _ _
  have h := sum_length_rle input (input.length / (k + 1)) hb k hle
  unfold localCountsOf
  rw [personalZips_eq_rle (k + 1) input hT hTN hlow, List.map_map]
  unfold processed equalBoundaries
  rw [Nat.add_sub_cancel, ← h]
  rfl

/-- The number of runs one worker writes on the processed prefix. -/
theorem sum_localCountsOf_one (T : Nat) (input : List Char) (hT : 1 ≤ T)
    (hTN : T ≤ input.length) (hlow : ∀ c ∈ input, isLower c) :
    (localCountsOf 1 (processed T input) (processed T input).length).sum =
      (rle (processed T input)).length := by
  rw [sum_localCountsOf, personalZips_one (processed T input)
    (one_le_length_processed T input hT hTN)
    (fun c hc => hlow c (List.mem_of_mem_take hc))]

/-- Claim C20 (run-count overhead bound): for every `T >= 1` and input of `N`
lowercase letters with `N >= T`, if `r1` is the number of runs of the
single-thread encoding of the processed prefix `input[0 .. T*(N/T))` and `rT`
the number of runs the `T`-thread call writes, then
`r1 <= rT <= r1 + (T - 1)`, and `rT - r1` equals the number of slice boundaries
`i*blockSize` (`0 < i < T`) at which the characters on both sides are equal. -/
theorem C20_run_count_overhead (n_threads : Nat) (input_chars : List Char)
    (hT : 1 ≤ n_threads) (hTN : n_threads ≤ input_chars.length)
    (hlow : ∀ c ∈ input_chars, isLower c) :
    (localCountsOf 1 (processed n_threads input_chars)
        (processed n_threads input_chars).length).sum ≤
      (localCountsOf n_threads input_chars input_chars.length).sum
    ∧ (localCountsOf n_threads input_chars input_chars.length).sum ≤
      (localCountsOf 1 (processed n_threads input_chars)
        (processed n_threads input_chars).length).sum + (n_threads - 1)
    ∧ (localCountsOf n_threads input_chars input_chars.length).sum -
        (localCountsOf 1 (processed n_threads input_chars)
          (processed n_threads input_chars).length).sum =
      equalBoundaries n_threads input_chars
    ∧ (localCountsOf n_threads input_chars input_chars.length).sum =
        (writtenIndices n_threads input_chars input_chars.length).length := by
  have h1 := sum_localCountsOf_one n_threads input_chars hT hTN hlow
  have hm := sum_localCountsOf_many n_threads input_chars hT hTN hlow
  have hE : equalBoundaries n_threads input_chars ≤ n_threads - 1 := by
    unfold equalBoundaries
    exact le_trans (List.countP_le_length _) (by simp)
  refine ⟨by omega, by omega, by omega, ?_⟩
  unfold writtenIndices
  rw [writtenIndices_eq, writeIdx_localCounts, sum_localCountsOf]
  simp

/-- Instance of C20: `"aaabbbccd"` with two workers: four runs against three,
one boundary (`b|b` at index 4) with equal characters. -/
theorem C20_run_count_overhead_witness :
    (1 ≤ 2 ∧ 2 ≤ ['a', 'a', 'a', 'b', 'b', 'b', 'c', 'c', 'd'].length
      ∧ (∀ c ∈ ['a', 'a', 'a', 'b', 'b', 'b', 'c', 'c', 'd'], isLower c))
    ∧ ((localCountsOf 2 ['a', 'a', 'a', 'b', 'b', 'b', 'c', 'c', 'd']
          ['a', 'a', 'a', 'b', 'b', 'b', 'c', 'c', 'd'].length).sum -
        (localCountsOf 1 (processed 2 ['a', 'a', 'a', 'b', 'b', 'b', 'c', 'c', 'd'])
          (processed 2 ['a', 'a', 'a', 'b', 'b', 'b', 'c', 'c', 'd']).length).sum =
      equalBoundaries 2 ['a', 'a', 'a', 'b', 'b', 'b', 'c', 'c', 'd'])
    ∧ (localCountsOf 2 ['a', 'a', 'a', 'b', 'b', 'b', 'c', 'c', 'd'] 9).sum = 4
    ∧ (localCountsOf 1 (processed 2 ['a', 'a', 'a', 'b', 'b', 'b', 'c', 'c', 'd']) 8).sum = 3
    ∧ equalBoundaries 2 ['a', 'a', 'a', 'b', 'b', 'b', 'c', 'c', 'd'] = 1 :=
  ⟨by decide,
   (C20_run_count_overhead 2 ['a', 'a', 'a', 'b', 'b', 'b', 'c', 'c', 'd']
     (by decide) (by decide) (by decide)).2.2.1,
   by decide, by decide, by decide⟩

/-! ## Calls whose stores stay inside the allocations -/

/-- A worker with a slice of length `size >= 1` stores to its private buffer
only below `size`. -/
theorem stores_lt_size (inputChars : List Char) (data : threadData)
    (cells : Nat → zipped_char)
    (hsize : data.size = data.endIdx - data.startIdx) (hL : 1 ≤ data.size)
    (hend : data.endIdx ≤ inputChars.length) :
    ∀ k ∈ (zipCharsBuf inputChars data cells).stores, k < data.size := by
  have hlen : (zipCharsLocal inputChars data).length ≤ data.size := by
    rw [hsize]
    exact length_zipCharsLocal_le inputChars data (by omega) hend
  obtain ⟨h1, _, h3⟩ := zipCharsBuf_eq inputChars data cells
  intro k hk
  rw [h3] at hk
  have := List.mem_range.mp hk
  omega

/-- With no empty slice and lowercase input every frequency index of every
worker is a slot of the table. -/
theorem freqIndices_bounds (T : Nat) (input : List Char) (hT : 1 ≤ T)
    (hTN : T ≤ input.length) (hlow : ∀ c ∈ input, isLower c) :
    ∀ i, i < T → ∀ k ∈ freqIndices ((personalZips T input input.length).getD i []),
      0 ≤ k ∧ k < 26 := by
  intro i hi k hk
  rw [getD_personalZips _ _ _ _ hi, zipCharsLocal_eq_rle _ _ _ hT hTN hi hlow] at hk
  simp only [freqIndices, List.mem_map] at hk
  obtain ⟨r, hr, rfl⟩ := hk
  have hmem := mem_workerSlice T input i _ (character_mem_rle _ r hr)
  obtain ⟨j, hj, hidx⟩ := freqIdx_of_isLower (hlow _ hmem)
  omega

/-- With `N >= T >= 1` and lowercase input no store of the call leaves its
allocation. -/
theorem storesInBounds_of_le (T : Nat) (input : List Char) (hT : 1 ≤ T)
    (hTN : T ≤ input.length) (hlow : ∀ c ∈ input, isLower c) :
    storesInBounds T input input.length := by
  have hb : 1 ≤ input.length / T := (Nat.one_le_div_iff (by omega)).mpr hTN
  refine ⟨?_, freqIndices_bounds T input hT hTN hlow, writtenIndices_lt T input hT hTN⟩
  intro i hi
  apply stores_lt_size
  · simp [mkThreadData]
  · simpa [mkThreadData] using hb
  · exact endIdx_le T input.length i hi

/-- Claim C1 as stated fails: entered with the run count 5, `pzip` on `"a"`
with one worker leaves the count 6, and the runs in
`outputRuns[0 .. outputRunCount)` are the run `(a,1)` followed by what the
cells 1 to 5 held before, here the marker `(q,9)`; their expansion is not
`"a"`. -/
theorem C1_counterexample :
    (pzip 1 ['a'] 1 ⟨fun _ => ⟨'q', 9⟩, 5, fun _ => 0⟩).totalZippedCharCount = 6
    ∧ outputRuns (pzip 1 ['a'] 1 ⟨fun _ => ⟨'q', 9⟩, 5, fun _ => 0⟩) =
        [⟨'a', 1⟩, ⟨'q', 9⟩, ⟨'q', 9⟩, ⟨'q', 9⟩, ⟨'q', 9⟩, ⟨'q', 9⟩]
    ∧ expand (outputRuns (pzip 1 ['a'] ['a'].length ⟨fun _ => ⟨'q', 9⟩, 5, fun _ => 0⟩)) ≠
        ['a'].take (1 * (['a'].length / 1)) := by
  decide

/-- Claim C1, amended (order preservation): for every thread count `T >= 1`
and every input of `N >= T` lowercase letters (`N` a C int), with the run count
0 on entry, expanding the runs `pzip` leaves in
`outputRuns[0 .. outputRunCount)` in index order and concatenating them yields
exactly the input prefix `input[0 .. T*(N/T))`; and no store of the call
leaves its allocation. -/
theorem C1_order_preservation (n_threads : Nat) (input_chars : List Char) (out : Outputs)
    (hT : 1 ≤ n_threads) (hTN : n_threads ≤ input_chars.length)
    (hN : input_chars.length < 2147483648)
    (hlow : ∀ c ∈ input_chars, isLower c)
    (h0 : out.totalZippedCharCount = 0) :
    expand (outputRuns (pzip n_threads input_chars input_chars.length out)) =
        input_chars.take (n_threads * (input_chars.length / n_threads))
    ∧ storesInBounds n_threads input_chars input_chars.length := by
  refine ⟨?_, storesInBounds_of_le n_threads input_chars hT hTN hlow⟩
  rw [pzip_outputRuns n_threads input_chars out hT (by omega) hN h0]
  exact expand_personalZips n_threads input_chars hlow

/-- Instance of the amended C1: `"aabbbcdd"` with three workers decodes to
`"aabbbc"`. -/
theorem C1_order_preservation_witness :
    (1 ≤ 3 ∧ 3 ≤ ['a', 'a', 'b', 'b', 'b', 'c', 'd', 'd'].length
      ∧ ['a', 'a', 'b', 'b', 'b', 'c', 'd', 'd'].length < 2147483648
      ∧ (∀ c ∈ ['a', 'a', 'b', 'b', 'b', 'c', 'd', 'd'], isLower c)
      ∧ zeroOutputs.totalZippedCharCount = 0)
    ∧ (expand (outputRuns (pzip 3 ['a', 'a', 'b', 'b', 'b', 'c', 'd', 'd']
          ['a', 'a', 'b', 'b', 'b', 'c', 'd', 'd'].length zeroOutputs)) =
        ['a', 'a', 'b', 'b', 'b', 'c', 'd', 'd'].take
          (3 * (['a', 'a', 'b', 'b', 'b', 'c', 'd', 'd'].length / 3))
      ∧ storesInBounds 3 ['a', 'a', 'b', 'b', 'b', 'c', 'd', 'd']
          ['a', 'a', 'b', 'b', 'b', 'c', 'd', 'd'].length)
    ∧ outputRuns (pzip 3 ['a', 'a', 'b', 'b', 'b', 'c', 'd', 'd'] 8 zeroOutputs) =
        [⟨'a', 2⟩, ⟨'b', 2⟩, ⟨'b', 1⟩, ⟨'c', 1⟩] :=
  ⟨by decide,
   C1_order_preservation 3 ['a', 'a', 'b', 'b', 'b', 'c', 'd', 'd'] zeroOutputs
     (by decide) (by decide) (by decide) (by decide) rfl,
   by decide⟩

/-- With one worker on a non-empty input of lowercase letters the runs stored
decode to the input, also as read through a run count that was 0 on entry, and
no store of the call leaves its allocation. -/
theorem round_trip_in_bounds (input_chars : List Char) (out : Outputs)
    (hne : 1 ≤ input_chars.length) (hN : input_chars.length < 2147483648)
    (hlow : ∀ c ∈ input_chars, isLower c) :
    expand (emittedRuns 1 input_chars input_chars.length
        (pzip 1 input_chars input_chars.length out)) = input_chars
    ∧ (out.totalZippedCharCount = 0 →
        expand (outputRuns (pzip 1 input_chars input_chars.length out)) = input_chars)
    ∧ storesInBounds 1 input_chars input_chars.length := by
  have h : expand (personalZips 1 input_chars input_chars.length).flatten = input_chars := by
    rw [expand_personalZips 1 input_chars hlow]
    simp
  refine ⟨?_, ?_, storesInBounds_of_le 1 input_chars (le_refl 1) hne hlow⟩
  · rw [pzip_emittedRuns, h]
  · intro h0
    rw [pzip_outputRuns 1 input_chars out (le_refl 1) (by decide) hN h0, h]

/-- With `N >= T >= 1`, lowercase input and the 26 slots zero on entry, the
slot of each letter holds its number of occurrences in the processed prefix,
which is the sum of the lengths of the stored runs with that character; no
store of the call leaves its allocation. -/
theorem letter_frequency_in_bounds (n_threads : Nat) (input_chars : List Char) (out : Outputs)
    (hT : 1 ≤ n_threads) (hTN : n_threads ≤ input_chars.length)
    (hN : input_chars.length < 2147483648)
    (hlow : ∀ c ∈ input_chars, isLower c)
    (hf0 : ∀ k : Int, 0 ≤ k → k < 26 → out.charFrequency k = 0)
    (c : Char) (hc : isLower c) :
    (pzip n_threads input_chars input_chars.length out).charFrequency (freqIdx c) =
        ((input_chars.take (n_threads * (input_chars.length / n_threads))).count c : Int)
    ∧ (pzip n_threads input_chars input_chars.length out).charFrequency (freqIdx c) =
        (lengthOf c (emittedRuns n_threads input_chars input_chars.length
          (pzip n_threads input_chars input_chars.length out)) : Int)
    ∧ storesInBounds n_threads input_chars input_chars.length := by
  obtain ⟨j, hj, hidx⟩ := freqIdx_of_isLower hc
  have hz : out.charFrequency (freqIdx c) = 0 := hf0 _ (by omega) (by omega)
  have hval := pzip_freq_zero n_threads input_chars out (freqIdx c) hN hlow hz
  rw [runSum_eq_lengthOf] at hval
  refine ⟨?_, ?_, storesInBounds_of_le n_threads input_chars hT hTN hlow⟩
  · rw [hval, lengthOf_eq_count, expand_personalZips n_threads input_chars hlow]
  · rw [hval, pzip_emittedRuns]

/-- With `N >= T >= 1`, lowercase input and the 26 slots zero on entry, the
slots sum to the total length of the stored runs, which is `T*(N/T)`; no store
of the call leaves its allocation. -/
theorem frequency_consistency_in_bounds (n_threads : Nat) (input_chars : List Char)
    (out : Outputs)
    (hT : 1 ≤ n_threads) (hTN : n_threads ≤ input_chars.length)
    (hN : input_chars.length < 2147483648)
    (hlow : ∀ c ∈ input_chars, isLower c)
    (hf0 : ∀ k : Int, 0 ≤ k → k < 26 → out.charFrequency k = 0) :
    tableSum (pzip n_threads input_chars input_chars.length out).charFrequency =
        (totalLength (emittedRuns n_threads input_chars input_chars.length
          (pzip n_threads input_chars input_chars.length out)) : Int)
    ∧ totalLength (emittedRuns n_threads input_chars input_chars.length
          (pzip n_threads input_chars input_chars.length out)) =
        n_threads * (input_chars.length / n_threads)
    ∧ storesInBounds n_threads input_chars input_chars.length := by
  have hlen : totalLength (emittedRuns n_threads input_chars input_chars.length
      (pzip n_threads input_chars input_chars.length out)) =
      n_threads * (input_chars.length / n_threads) := by
    rw [pzip_emittedRuns, totalLength_eq_length,
      expand_personalZips n_threads input_chars hlow, List.length_take]
    exact Nat.min_eq_left (Nat.mul_div_le _ _)
  refine ⟨?_, hlen, storesInBounds_of_le n_threads input_chars hT hTN hlow⟩
  rw [tableSum_eq _
    (fun k => runSum (k : Int) (personalZips n_threads input_chars input_chars.length).flatten)
    (fun k hk => pzip_freq_zero n_threads input_chars out k hN hlow
      (hf0 _ (by omega) (by omega)))]
  rw [hlen]
  refine congrArg Nat.cast ?_
  have hsum := sum_countP_freqIdx
    (expand (personalZips n_threads input_chars input_chars.length).flatten)
    (by
      rw [expand_personalZips n_threads input_chars hlow]
      intro c hc
      exact hlow c (List.mem_of_mem_take hc))
  rw [expand_personalZips n_threads input_chars hlow, List.length_take,
    Nat.min_eq_left (Nat.mul_div_le _ _)] at hsum
  rw [← hsum]
  refine congrArg List.sum (List.map_congr_left ?_)
  intro k _
  rw [runSum_eq_countP, expand_personalZips n_threads input_chars hlow]

/-- The copy loop of worker `id` stores run `k - writeIdx` of its private
buffer to every cell `k` of its range. -/
theorem zipCharsMerge_stored (lc : List Nat) (id : Nat) (pz : List zipped_char) (out : Outputs)
    (k : Nat) (hk : k ∈ writeRange lc id) :
    (zipCharsMerge lc id pz out).zippedChars k = pz.getD (k - writeIdx lc id) default := by
  simp only [writeRange, List.mem_range'_1] at hk
  simp only [zipCharsMerge]
  rw [writeLoop_apply, if_pos hk, Nat.zero_add]

/-- With `N >= T >= 1`, lowercase input and the run count 0 on entry: worker
`i` stores its private buffer to the cells of its range
`[offset_i, offset_i + localCount_i)` and to no other cell, the ranges are
pairwise disjoint, their union is `[0, outputRunCount)`, they lie in the
caller's run list, the cells `0 .. outputRunCount` end up holding the private
buffers in worker order, and the offsets are those of one prefix-sum pass. -/
theorem partition_tiling_in_bounds (n_threads : Nat) (input_chars : List Char)
    (out : Outputs)
    (hT : 1 ≤ n_threads) (hTN : n_threads ≤ input_chars.length)
    (hN : input_chars.length < 2147483648)
    (hlow : ∀ c ∈ input_chars, isLower c)
    (h0 : out.totalZippedCharCount = 0) :
    (∀ (i : Nat) (pz : List zipped_char) (o : Outputs) (k : Nat),
        k ∈ writeRange (localCountsOf n_threads input_chars input_chars.length) i →
        (zipCharsMerge (localCountsOf n_threads input_chars input_chars.length) i pz o).zippedChars k
          = pz.getD (k - writeIdx (localCountsOf n_threads input_chars input_chars.length) i)
              default)
    ∧ (∀ (i : Nat) (pz : List zipped_char) (o : Outputs) (k : Nat),
        k ∉ writeRange (localCountsOf n_threads input_chars input_chars.length) i →
        (zipCharsMerge (localCountsOf n_threads input_chars input_chars.length) i pz o).zippedChars k
          = o.zippedChars k)
    ∧ (∀ i j : Nat, i < n_threads → j < n_threads → i ≠ j →
        List.Disjoint (writeRange (localCountsOf n_threads input_chars input_chars.length) i)
          (writeRange (localCountsOf n_threads input_chars input_chars.length) j))
    ∧ (∀ k : Nat,
        (k : Int) < (pzip n_threads input_chars input_chars.length out).totalZippedCharCount ↔
          ∃ i, i < n_threads ∧
            k ∈ writeRange (localCountsOf n_threads input_chars input_chars.length) i)
    ∧ (∀ i k : Nat, i < n_threads →
        k ∈ writeRange (localCountsOf n_threads input_chars input_chars.length) i →
        k < input_chars.length)
    ∧ outputRuns (pzip n_threads input_chars input_chars.length out) =
        (personalZips n_threads input_chars input_chars.length).flatten
    ∧ ((writeIdx (localCountsOf n_threads input_chars input_chars.length) n_threads : Int) =
        (pzip n_threads input_chars input_chars.length out).totalZippedCharCount)
    ∧ (List.range (n_threads + 1)).map
          (writeIdx (localCountsOf n_threads input_chars input_chars.length)) =
        prefixSumPass 0 (localCountsOf n_threads input_chars input_chars.length)
    ∧ storesInBounds n_threads input_chars input_chars.length := by
  have hTint : n_threads < 2147483648 := by omega
  have htot : (pzip n_threads input_chars input_chars.length out).totalZippedCharCount =
      (writeIdx (localCountsOf n_threads input_chars input_chars.length) n_threads : Int) := by
    rw [pzip_total n_threads input_chars _ out hT, h0, zero_add, writeIdx_localCounts,
      wrapInt_of_isInt (isInt_natCast (length_flatten_lt n_threads input_chars hT hTint hN))]
  have hbounds := storesInBounds_of_le n_threads input_chars hT hTN hlow
  refine ⟨fun i pz o k hk => zipCharsMerge_stored _ i pz o k hk,
    fun i pz o k hk => zipCharsMerge_frame _ i pz o k hk, ?_, ?_, ?_,
    pzip_outputRuns n_threads input_chars out hT hTint hN h0, htot.symm, ?_, hbounds⟩
  · intro i j _ _ hij
    rcases Nat.lt_or_gt_of_ne hij with h | h
    · exact writeRange_disjoint _ i j h
    · exact (writeRange_disjoint _ j i h).symm
  · intro k
    rw [htot, Nat.cast_lt]
    constructor
    · exact exists_writeRange _ n_threads k
    · rintro ⟨i, hi, hk⟩
      exact writeRange_lt _ i n_threads k hi hk
  · intro i k hi hk
    have h1 := writeRange_lt _ i n_threads k hi hk
    rw [writeIdx_localCounts] at h1
    exact lt_of_lt_of_le h1 (length_flatten_le n_threads input_chars hT hTN)
  · rw [prefixSumPass_eq]
    have hlen : (localCountsOf n_threads input_chars input_chars.length).length = n_threads := by
      simp [localCountsOf, length_personalZips]
    rw [hlen]
    simp

end PZip
